import Mathlib

/-!
Verification development for the MidToChord codec (`src/mid-to-chord.js`,
`src/result-to-mid.js`).

Modelling conventions:
* JS numbers are modelled as exact rationals (`Rat`); integer-valued
  quantities (tick counts, step counts, character budgets) as `Nat`/`Int`.
* A pitch-or-rest slot of a quantized sequence is `Option Int`
  (`none` models the JS `null` rest).
* Fallible JS code (functions that `throw`) is modelled with `Except`.
* Each definition is a direct translation of the JS function of the same
  name; renamings forced by Lean keywords are noted at the definition.
-/

set_option maxHeartbeats 1600000
set_option maxRecDepth 4000

namespace MidToChord

/-- Pitch-or-rest value held by one quantization step (`null` in JS = `none`). -/
abbrev StepValue := Option Int

/-- Run of identical step values; mirrors the run records produced by
`sequenceToRuns`. The JS field `end` is spelled `stop` because `end` is a
Lean keyword. -/
structure Run where
  value : StepValue
  start : Nat
  stop : Nat
  length : Nat
deriving DecidableEq, Repr

/-- Loop of `sequenceToRuns`: `current`/`start` mirror the JS mutable
variables, `i` is the loop index. -/
def runsAux : List StepValue → StepValue → Nat → Nat → List Run
  | [], current, start, i => [⟨current, start, i, i - start⟩]
  | x :: rest, current, start, i =>
    if x = current then runsAux rest current start (i + 1)
    else ⟨current, start, i, i - start⟩ :: runsAux rest x i (i + 1)

/-- JS `sequenceToRuns(sequence)`: maximal-run decomposition of a sequence. -/
def sequenceToRuns : List StepValue → List Run
  | [] => []
  | x :: rest => runsAux rest x 0 1

theorem runsAux_ne_nil (rest : List StepValue) (current : StepValue)
    (start i : Nat) : runsAux rest current start i ≠ [] := by
  cases rest with
  | nil => simp [runsAux]
  | cons x xs =>
    by_cases h : x = current <;> simp [runsAux, h] <;> exact runsAux_ne_nil xs current start (i + 1)

theorem runsAux_head (rest : List StepValue) (current : StepValue)
    (start i : Nat) :
    ∃ r tail, runsAux rest current start i = r :: tail ∧
      r.start = start ∧ r.value = current := by
  induction rest generalizing start i with
  | nil => exact ⟨_, _, rfl, rfl, rfl⟩
  | cons x xs ih =>
    by_cases h : x = current
    · simpa [runsAux, h] using ih start (i + 1)
    · refine ⟨⟨current, start, i, i - start⟩, runsAux xs x i (i + 1), ?_, rfl, rfl⟩
      simp [runsAux, h]

theorem runsAux_spec (seq : List StepValue) (rest : List StepValue)
    (current : StepValue) (start i : Nat)
    (hlt : start < i)
    (hprev : ∀ j, start ≤ j → j < i → seq.get? j = some current)
    (hlen : seq.length = i + rest.length)
    (hrest : ∀ k, k < rest.length → seq.get? (i + k) = rest.get? k) :
    (List.Chain' (fun a b => a.stop = b.start) (runsAux rest current start i)) ∧
    (List.Chain' (fun a b => a.value ≠ b.value) (runsAux rest current start i)) ∧
    ((runsAux rest current start i).getLast?.map Run.stop = some seq.length) ∧
    (∀ r ∈ runsAux rest current start i,
      r.start < r.stop ∧ r.length = r.stop - r.start ∧
      ∀ j, r.start ≤ j → j < r.stop → seq.get? j = some r.value) := by
  induction rest generalizing current start i with
  | nil =>
    refine ⟨by simp [runsAux], by simp [runsAux], by simp [runsAux, hlen], ?_⟩
    intro r hr
    simp only [runsAux, List.mem_singleton] at hr
    subst hr
    exact ⟨hlt, rfl, fun j h1 h2 => hprev j h1 h2⟩
  | cons x xs ih =>
    by_cases hx : x = current
    · subst hx
      have hprev' : ∀ j, start ≤ j → j < i + 1 → seq.get? j = some x := by
        intro j h1 h2
        rcases Nat.lt_or_ge j i with h | h
        · exact hprev j h1 h
        · have : j = i := Nat.le_antisymm (Nat.lt_succ_iff.mp h2) h
          subst this
          have := hrest 0 (by simp)
          simpa using this
      have hlen' : seq.length = (i + 1) + xs.length := by
        simp [hlen, List.length_cons]; omega
      have hrest' : ∀ k, k < xs.length → seq.get? ((i + 1) + k) = xs.get? k := by
        intro k hk
        have := hrest (k + 1) (by simp; omega)
        simpa [Nat.add_assoc, Nat.add_comm 1 k] using this
      simpa [runsAux] using ih x start (i + 1) (Nat.lt_succ_of_lt hlt) hprev' hlen' hrest'
    · have hxi : seq.get? i = some x := by
        have := hrest 0 (by simp)
        simpa using this
      have hprev' : ∀ j, i ≤ j → j < i + 1 → seq.get? j = some x := by
        intro j h1 h2
        have : j = i := by omega
        subst this; exact hxi
      have hlen' : seq.length = (i + 1) + xs.length := by
        simp [hlen, List.length_cons]; omega
      have hrest' : ∀ k, k < xs.length → seq.get? ((i + 1) + k) = xs.get? k := by
        intro k hk
        have := hrest (k + 1) (by simp; omega)
        simpa [Nat.add_assoc, Nat.add_comm 1 k] using this
      obtain ⟨ch1, ch2, hlast, hmem⟩ :=
        ih x i (i + 1) (Nat.lt_succ_self i) hprev' hlen' hrest'
      obtain ⟨r0, tail0, heq, hr0s, hr0v⟩ := runsAux_head xs x i (i + 1)
      refine ⟨?_, ?_, ?_, ?_⟩
      · simp only [runsAux, if_neg hx]
        rw [heq] at ch1 ⊢
        exact List.Chain'.cons (by simpa [hr0s]) ch1
      · simp only [runsAux, if_neg hx]
        rw [heq] at ch2 ⊢
        refine List.Chain'.cons ?_ ch2
        show ¬({ value := current, start := start, stop := i, length := i - start } : Run).value = r0.value
        rw [hr0v]
        exact fun h => hx h.symm
      · simp only [runsAux, if_neg hx]
        rw [heq] at hlast ⊢
        rw [List.getLast?_cons_cons]
        exact hlast
      · intro r hr
        simp only [runsAux, if_neg hx, List.mem_cons] at hr
        rcases hr with hr | hr
        · subst hr
          exact ⟨hlt, rfl, fun j h1 h2 => hprev j h1 h2⟩
        · exact hmem r hr

/-- CLAIM C2: for every non-empty StepSequence, the runs produced by
`sequenceToRuns` partition the sequence: the first run starts at 0, each
run ends where the next begins, the last run ends at `totalSteps`, every
run is non-empty with `length = stop - start`, the run value equals the
sequence value at every step the run spans, and no two adjacent runs share
the same value. -/
theorem sequenceToRuns_partitions (seq : List StepValue) (hne : seq ≠ []) :
    (∃ r tail, sequenceToRuns seq = r :: tail ∧ r.start = 0) ∧
    ((sequenceToRuns seq).getLast?.map Run.stop = some seq.length) ∧
    List.Chain' (fun a b => a.stop = b.start) (sequenceToRuns seq) ∧
    List.Chain' (fun a b => a.value ≠ b.value) (sequenceToRuns seq) ∧
    (∀ r ∈ sequenceToRuns seq,
      r.start < r.stop ∧ r.length = r.stop - r.start ∧
      ∀ j, r.start ≤ j → j < r.stop → seq.get? j = some r.value) := by
  obtain ⟨x, rest, rfl⟩ := List.exists_cons_of_ne_nil hne
  have hspec := runsAux_spec (x :: rest) rest x 0 1 (Nat.zero_lt_one)
    (by intro j h1 h2; interval_cases j; simp)
    (by simp [Nat.add_comm])
    (by intro k hk; rw [Nat.add_comm]; simp)
  obtain ⟨r, tail, heq, hs, _⟩ := runsAux_head rest x 0 1
  exact ⟨⟨r, tail, by simpa [sequenceToRuns] using heq, hs⟩,
    by simpa [sequenceToRuns] using hspec.2.2.1,
    by simpa [sequenceToRuns] using hspec.1,
    by simpa [sequenceToRuns] using hspec.2.1,
    by simpa [sequenceToRuns] using hspec.2.2.2⟩

/-- Witness for C2 on the concrete sequence `[60, 60, rest]`. -/
theorem sequenceToRuns_partitions_witness :
    (([some 60, some 60, none] : List StepValue) ≠ []) ∧
    ((∃ r tail, sequenceToRuns [some 60, some 60, none] = r :: tail ∧ r.start = 0) ∧
    ((sequenceToRuns [some 60, some 60, none]).getLast?.map Run.stop =
      some ([some 60, some 60, none] : List StepValue).length) ∧
    List.Chain' (fun a b => a.stop = b.start) (sequenceToRuns [some 60, some 60, none]) ∧
    List.Chain' (fun a b => a.value ≠ b.value) (sequenceToRuns [some 60, some 60, none]) ∧
    (∀ r ∈ sequenceToRuns [some 60, some 60, none],
      r.start < r.stop ∧ r.length = r.stop - r.start ∧
      ∀ j, r.start ≤ j → j < r.stop →
        ([some 60, some 60, none] : List StepValue).get? j = some r.value)) :=
  ⟨by decide, sequenceToRuns_partitions [some 60, some 60, none] (by decide)⟩

/-! ### Token truncation (`truncateByTokens`, `truncateTokensWithStats`) -/

/-- JS `tokens.join("")` (array join with empty separator). -/
def joinTokens : List String → String
  | [] => ""
  | s :: rest => s ++ joinTokens rest

/-- Scan of `isNoteStartToken` past leading octave-shift characters. -/
def isNoteLetterAfterShifts : List Char → Bool
  | [] => false
  | c :: rest =>
    if c = '>' ∨ c = '<' then isNoteLetterAfterShifts rest
    else
      let ch := c.toLower
      ch = 'a' ∨ ch = 'b' ∨ ch = 'c' ∨ ch = 'd' ∨ ch = 'e' ∨ ch = 'f' ∨ ch = 'g'

/-- JS `isNoteStartToken(token)`: does this token begin a new note event. -/
def isNoteStartToken (token : String) : Bool :=
  match token.data with
  | [] => false
  | first :: _ =>
    if first = '&' ∨ first = 'r' ∨ first = 't' ∨ first = 'v' ∨ first = 'o' ∨ first = 'l'
    then false
    else isNoteLetterAfterShifts token.data

/-- Result record of `truncateTokensWithStats`. -/
structure TruncateStats where
  text : String
  noteEventCount : Nat
  tokenCount : Nat
  retainedSteps : Nat
  truncated : Bool
deriving DecidableEq, Repr

/-- Loop of `truncateTokensWithStats`: stops at the first token that would
push the accumulated text past `limit`. -/
def truncGo (limit : Nat) :
    List String → List Nat → String → Nat → Nat → Nat → TruncateStats
  | [], _, out, ne, tc, rs => ⟨out, ne, tc, rs, false⟩
  | token :: rest, steps, out, ne, tc, rs =>
    if out.length + token.length > limit then ⟨out, ne, tc, rs, true⟩
    else
      truncGo limit rest steps.tail (out ++ token)
        (if isNoteStartToken token then ne + 1 else ne) (tc + 1) (rs + steps.headD 0)

/-- JS `truncateTokensWithStats(tokens, tokenSteps, limit)`. The character
limit is modelled as a `Nat` (`limit ≤ 0` in JS corresponds to `limit = 0`);
a missing/non-finite `tokenSteps[i]` is modelled by `headD 0`. -/
def truncateTokensWithStats (tokens : List String) (tokenSteps : List Nat)
    (limit : Nat) : TruncateStats :=
  if limit = 0 ∨ tokens = [] then
    ⟨"", 0, 0, 0, decide (tokens ≠ [])⟩
  else truncGo limit tokens tokenSteps "" 0 0 0

theorem truncGo_spec (limit : Nat) :
    ∀ (tokens : List String) (steps : List Nat) (out : String)
      (ne tc rs : Nat), out.length ≤ limit →
    ∃ k, (truncGo limit tokens steps out ne tc rs).text = out ++ joinTokens (tokens.take k) ∧
      (truncGo limit tokens steps out ne tc rs).text.length ≤ limit ∧
      out ++ joinTokens tokens =
        (truncGo limit tokens steps out ne tc rs).text ++ joinTokens (tokens.drop k) := by
  intro tokens
  induction tokens with
  | nil =>
    intro steps out ne tc rs hout
    exact ⟨0, by simp [truncGo, joinTokens], by simpa [truncGo] using hout,
      by simp [truncGo, joinTokens]⟩
  | cons token rest ih =>
    intro steps out ne tc rs hout
    by_cases hbreak : out.length + token.length > limit
    · refine ⟨0, ?_, ?_, ?_⟩
      · simp [truncGo, hbreak, joinTokens]
      · simpa [truncGo, hbreak] using hout
      · simp [truncGo, hbreak, joinTokens]
    · have hout' : (out ++ token).length ≤ limit := by
        rw [String.length_append]; omega
      obtain ⟨k, h1, h2, h3⟩ := ih steps.tail (out ++ token)
        (if isNoteStartToken token then ne + 1 else ne) (tc + 1) (rs + steps.headD 0) hout'
      refine ⟨k + 1, ?_, ?_, ?_⟩
      · simpa [truncGo, hbreak, joinTokens, String.append_assoc] using h1
      · simpa [truncGo, hbreak] using h2
      · simp only [truncGo, hbreak, if_false, List.drop_succ_cons, joinTokens]
        simpa [String.append_assoc] using h3

/-- CLAIM C4: for every token list and character limit, truncation emits the
concatenation of a prefix of whole tokens, of total length at most the limit,
and that text is an exact token-boundary-aligned prefix of the full rendering
(`joinTokens tokens`): no token is ever split. -/
theorem truncateTokensWithStats_token_boundary (tokens : List String)
    (tokenSteps : List Nat) (limit : Nat) :
    ∃ k, (truncateTokensWithStats tokens tokenSteps limit).text =
        joinTokens (tokens.take k) ∧
      (truncateTokensWithStats tokens tokenSteps limit).text.length ≤ limit ∧
      joinTokens tokens =
        (truncateTokensWithStats tokens tokenSteps limit).text ++
          joinTokens (tokens.drop k) := by
  unfold truncateTokensWithStats
  by_cases hguard : limit = 0 ∨ tokens = []
  · refine ⟨0, ?_, ?_, ?_⟩ <;> simp [hguard, joinTokens]
  · obtain ⟨k, h1, h2, h3⟩ := truncGo_spec limit tokens tokenSteps "" 0 0 0 (by simp)
    refine ⟨k, ?_, ?_, ?_⟩
    · simpa [hguard] using h1
    · simpa [hguard] using h2
    · simpa [hguard] using h3

/-! ### Step sequencing (`buildStepSequence`) -/

/-- NoteEvent of the codec: `midi` pitch, absolute start tick, duration in
ticks, velocity in `[0,1]`. JS numbers are modelled as exact rationals. -/
structure Note where
  midi : Int
  ticks : Rat
  durationTicks : Rat
  velocity : Rat
deriving DecidableEq, Repr

/-- JS `clamp(value, min, max)` on rationals. -/
def clampQ (value lo hi : Rat) : Rat := min hi (max lo value)

/-- JS `clamp(value, min, max)` on integers. -/
def clampZ (value lo hi : Int) : Int := min hi (max lo value)

/-- JS `Math.round`: round half toward positive infinity. -/
def jsRound (q : Rat) : Int := Int.floor (q + 1 / 2)

/-- JS `Array.from(new Set(xs)).sort((a, b) => a - b)`: sorted deduplicated
copy of an integer list. -/
def sortedUnique (l : List Int) : List Int := List.insertionSort (· ≤ ·) l.dedup

/-- Voice role mode of the sequencer (`"melody"`, `"chord1"`, `"chord2"`). -/
inductive Mode
  | melody
  | chord1
  | chord2
deriving DecidableEq, Repr

/-- Start step of a note (`clamp(Math.floor(note.ticks / stepTicks), 0, totalSteps - 1)`). -/
def noteStartStep (note : Note) (stepTicks : Rat) (totalSteps : Nat) : Int :=
  clampZ (Int.floor (note.ticks / stepTicks)) 0 ((totalSteps : Int) - 1)

/-- End step of a note (`clamp(Math.max(start + 1, endFromTicks), start + 1, totalSteps)`). -/
def noteEndStep (note : Note) (stepTicks : Rat) (totalSteps : Nat) : Int :=
  let start := noteStartStep note stepTicks totalSteps
  let endFromTicks := Int.ceil ((note.ticks + note.durationTicks) / stepTicks)
  clampZ (max (start + 1) endFromTicks) (start + 1) (totalSteps : Int)

/-- Sorted deduplicated active-pitch set of step `i` (the bucket `active`
list after `Array.from(new Set(...)).sort`). -/
def stepActive (notes : List Note) (stepTicks : Rat) (totalSteps : Nat) (i : Nat) : List Int :=
  sortedUnique ((notes.filter (fun n =>
    noteStartStep n stepTicks totalSteps ≤ (i : Int) ∧
    (i : Int) < noteEndStep n stepTicks totalSteps)).map Note.midi)

/-- Sorted deduplicated onset-pitch set of step `i`. -/
def stepOnsets (notes : List Note) (stepTicks : Rat) (totalSteps : Nat) (i : Nat) : List Int :=
  sortedUnique ((notes.filter (fun n =>
    noteStartStep n stepTicks totalSteps = (i : Int))).map Note.midi)

/-- Inner loop of the `chord1` (upper-voice) selection: nearest candidate to
the previous pitch. -/
def nearestPitch (candidates : List Int) (prev : Int) : Int :=
  match candidates with
  | [] => 0
  | c :: rest =>
    rest.foldl (fun best pitch =>
      if (pitch - prev).natAbs < (best - prev).natAbs then pitch else best) c

/-- Single-step pitch selection of `buildStepSequence` for a step whose
active set is non-empty. -/
def selectStep (mode : Mode) (activeSorted onsetSorted : List Int)
    (previousPitch : Option Int) : Option Int :=
  let hasOnset := onsetSorted ≠ []
  match mode with
  | .melody =>
    let source := if onsetSorted ≠ [] then onsetSorted else activeSorted
    if ¬hasOnset ∧ (∃ p, previousPitch = some p ∧ p ∈ activeSorted) then previousPitch
    else source.getLast?
  | .chord2 =>
    if ¬hasOnset ∧ (∃ p, previousPitch = some p ∧ p ∈ activeSorted) then previousPitch
    else activeSorted.head?
  | .chord1 =>
    let source := activeSorted
    let candidates := if source.length ≥ 3 then source.tail else source
    if ¬hasOnset ∧ (∃ p, previousPitch = some p ∧ p ∈ candidates) then previousPitch
    else
      match previousPitch with
      | none => candidates.getLast?
      | some prev => some (nearestPitch candidates prev)

/-- Main selection scan of `buildStepSequence` over the per-step
(active, onsets) buckets, threading the `previousPitch` state. -/
def selectSteps (mode : Mode) : List (List Int × List Int) → Option Int → List StepValue
  | [], _ => []
  | bucket :: rest, prev =>
    if bucket.1 = [] then none :: selectSteps mode rest prev
    else
      let chosen := selectStep mode bucket.1 bucket.2 prev
      let newPrev := match chosen with
        | none => prev
        | some q => some q
      chosen :: selectSteps mode rest newPrev

/-- Total step count of a sequence (`Math.max(1, Math.ceil(maxEnd / stepTicks))`). -/
def totalStepsFor (notes : List Note) (stepTicks targetEndTicks : Rat) : Nat :=
  let noteMaxEnd := notes.foldl (fun m n => max m (n.ticks + n.durationTicks)) 0
  let maxEnd := max noteMaxEnd targetEndTicks
  max 1 (Int.ceil (maxEnd / stepTicks)).toNat

/-- JS `buildStepSequence(notes, stepTicks, mode, targetEndTicks)`. -/
def buildStepSequence (notes : List Note) (stepTicks : Rat) (mode : Mode)
    (targetEndTicks : Rat := 0) : List StepValue :=
  let totalSteps := totalStepsFor notes stepTicks targetEndTicks
  if notes = [] then List.replicate totalSteps none
  else
    selectSteps mode ((List.range totalSteps).map (fun i =>
      (stepActive notes stepTicks totalSteps i, stepOnsets notes stepTicks totalSteps i))) none

theorem selectSteps_length (mode : Mode) :
    ∀ (buckets : List (List Int × List Int)) (prev : Option Int),
    (selectSteps mode buckets prev).length = buckets.length := by
  intro buckets
  induction buckets with
  | nil => intro prev; simp [selectSteps]
  | cons bucket rest ih =>
    intro prev
    by_cases hempty : bucket.1 = [] <;> simp [selectSteps, hempty, ih]

theorem selectSteps_holdover (mode : Mode)
    (hm : mode = Mode.melody ∨ mode = Mode.chord2) :
    ∀ (buckets : List (List Int × List Int)) (prev : Option Int) (i : Nat) (p : Int)
      (active onsets : List Int),
    (selectSteps mode buckets prev).get? i = some (some p) →
    buckets.get? (i + 1) = some (active, onsets) →
    onsets = [] → p ∈ active →
    (selectSteps mode buckets prev).get? (i + 1) = some (some p) := by
  intro buckets
  induction buckets with
  | nil => intro prev i p active onsets h1 h2; simp [selectSteps] at h1
  | cons bucket rest ih =>
    intro prev i p active onsets h1 h2 honsets hactive
    cases i with
    | zero =>
      by_cases hempty : bucket.1 = []
      · simp [selectSteps, hempty] at h1
      · have hchosen : selectStep mode bucket.1 bucket.2 prev = some p := by
          simpa [selectSteps, hempty] using h1
        have hrest : rest.get? 0 = some (active, onsets) := by simpa using h2
        obtain ⟨b, rest', rfl⟩ : ∃ b rest', rest = b :: rest' := by
          cases rest with
          | nil => simp at hrest
          | cons b rest' => exact ⟨b, rest', rfl⟩
        have hb : b = (active, onsets) := by simpa using hrest
        subst hb
        have hanemp : active ≠ [] := by
          intro h; rw [h] at hactive; simp at hactive
        have hsel : selectStep mode active onsets (some p) = some p := by
          subst honsets
          rcases hm with rfl | rfl
          · simp [selectStep]
            intro h; exact absurd hactive h
          · simp [selectStep]
            intro h; exact absurd hactive h
        simp only [selectSteps, hempty, if_neg (by simp [hanemp] : ¬(active = []))]
        simp [hchosen, hsel, selectSteps, hanemp]
    | succ j =>
      by_cases hempty : bucket.1 = []
      · have h1' : (selectSteps mode rest prev).get? j = some (some p) := by
          simpa [selectSteps, hempty] using h1
        have h2' : rest.get? (j + 1) = some (active, onsets) := by simpa using h2
        have := ih prev j p active onsets h1' h2' honsets hactive
        simpa [selectSteps, hempty] using this
      · set newPrev := match selectStep mode bucket.1 bucket.2 prev with
          | none => prev
          | some q => some q with hnp
        have h1' : (selectSteps mode rest newPrev).get? j = some (some p) := by
          simpa [selectSteps, hempty, hnp] using h1
        have h2' : rest.get? (j + 1) = some (active, onsets) := by simpa using h2
        have := ih newPrev j p active onsets h1' h2' honsets hactive
        simpa [selectSteps, hempty, hnp] using this

/-- CLAIM C5: in melody and lower (`chord2`) sequencing, a step whose onset
set is empty but whose active set still contains the pitch selected at the
previous step is assigned that previous pitch. -/
theorem buildStepSequence_holdover (notes : List Note) (stepTicks : Rat)
    (mode : Mode) (targetEndTicks : Rat) (i : Nat) (p : Int)
    (hm : mode = Mode.melody ∨ mode = Mode.chord2)
    (hprev : (buildStepSequence notes stepTicks mode targetEndTicks).get? i = some (some p))
    (honset : stepOnsets notes stepTicks (totalStepsFor notes stepTicks targetEndTicks) (i + 1) = [])
    (hactive : p ∈ stepActive notes stepTicks (totalStepsFor notes stepTicks targetEndTicks) (i + 1)) :
    (buildStepSequence notes stepTicks mode targetEndTicks).get? (i + 1) = some (some p) := by
  by_cases hnil : notes = []
  · exfalso
    rw [buildStepSequence, if_pos hnil] at hprev
    rcases Nat.lt_or_ge i (totalStepsFor notes stepTicks targetEndTicks) with h | h
    · rw [List.get?_eq_get (by simpa using h)] at hprev
      simp at hprev
    · rw [List.get?_eq_none.mpr (by simpa using h)] at hprev
      exact Option.noConfusion hprev
  · set totalSteps := totalStepsFor notes stepTicks targetEndTicks with hts
    have hlt1 : i + 1 < totalSteps := by
      have hi : i < totalSteps := by
        by_contra hge
        rw [buildStepSequence, if_neg hnil] at hprev
        rw [List.get?_eq_none.mpr ?_] at hprev
        · exact Option.noConfusion hprev
        · rw [selectSteps_length]
          simp only [List.length_map, List.length_range]
          omega
      rcases Nat.lt_or_ge (i + 1) totalSteps with h | h
      · exact h
      · exfalso
        have hi1 : i + 1 = totalSteps := by omega
        rw [stepActive] at hactive
        rw [sortedUnique] at hactive
        have := (List.Perm.mem_iff (List.perm_insertionSort (· ≤ ·) _)).mp hactive
        rw [List.mem_dedup, List.mem_map] at this
        obtain ⟨n, hn, rfl⟩ := this
        rw [List.mem_filter] at hn
        have hend : noteEndStep n stepTicks totalSteps ≤ (totalSteps : Int) := by
          rw [noteEndStep, clampZ]; exact min_le_left _ _
        have := hn.2
        simp only [decide_eq_true_eq] at this
        omega
    rw [buildStepSequence, if_neg hnil] at hprev ⊢
    refine selectSteps_holdover mode hm _ none i p _ _ hprev ?_ honset hactive
    simp [List.get?_map, List.get?_range, hlt1]

/-- Witness for C5: one held note `{midi 60, ticks 0, duration 2}` with
`stepTicks = 1`; step 1 has no onset and step 0 selected pitch 60. -/
theorem buildStepSequence_holdover_witness :
    ((Mode.melody = Mode.melody ∨ Mode.melody = Mode.chord2) ∧
     (buildStepSequence [⟨60, 0, 2, 1⟩] 1 Mode.melody 0).get? 0 = some (some 60) ∧
     stepOnsets [⟨60, 0, 2, 1⟩] 1 (totalStepsFor [⟨60, 0, 2, 1⟩] 1 0) 1 = [] ∧
     60 ∈ stepActive [⟨60, 0, 2, 1⟩] 1 (totalStepsFor [⟨60, 0, 2, 1⟩] 1 0) 1) ∧
    (buildStepSequence [⟨60, 0, 2, 1⟩] 1 Mode.melody 0).get? 1 = some (some 60) := by
  refine ⟨⟨Or.inl rfl, by with_unfolding_all decide, by with_unfolding_all decide,
    by with_unfolding_all decide⟩, ?_⟩
  exact buildStepSequence_holdover [⟨60, 0, 2, 1⟩] 1 Mode.melody 0 0 60
    (Or.inl rfl) (by with_unfolding_all decide) (by with_unfolding_all decide)
    (by with_unfolding_all decide)

/-! ### Note-pool sorting and high-note rebalancing -/

/-- Comparator of `sortNotesByTime`
(`a.ticks - b.ticks || a.midi - b.midi || a.durationTicks - b.durationTicks`),
as the weak order used by a stable sort. -/
def noteLe (a b : Note) : Prop :=
  a.ticks < b.ticks ∨ (a.ticks = b.ticks ∧
    (a.midi < b.midi ∨ (a.midi = b.midi ∧ a.durationTicks ≤ b.durationTicks)))

instance : DecidableRel noteLe := fun a b => by
  unfold noteLe; infer_instance

/-- JS `sortNotesByTime(notes)`: stable sort by start tick, pitch, duration. -/
def sortNotesByTime (notes : List Note) : List Note :=
  List.insertionSort noteLe notes

/-- Dedup key of `mergeUniqueNotes`
(JS string key `round(ticks)|round(durationTicks)|round(midi)`). -/
def mergeKey (n : Note) : Int × Int × Int :=
  (jsRound n.ticks, jsRound n.durationTicks, n.midi)

/-- JS `mergeUniqueNotes(baseNotes, extraNotes)`. -/
def mergeUniqueNotes (baseNotes extraNotes : List Note) : List Note :=
  let step := fun (acc : List (Int × Int × Int) × List Note) (note : Note) =>
    if mergeKey note ∈ acc.1 then acc
    else (mergeKey note :: acc.1, acc.2 ++ [note])
  sortNotesByTime ((baseNotes ++ extraNotes).foldl step ([], [])).2

/-- Comparator of the per-pitch lists inside `normalizeSameMidiOverlaps`
(`a.ticks - b.ticks || a.durationTicks - b.durationTicks`). -/
def tickDurLe (a b : Note) : Prop :=
  a.ticks < b.ticks ∨ (a.ticks = b.ticks ∧ a.durationTicks ≤ b.durationTicks)

instance : DecidableRel tickDurLe := fun a b => by
  unfold tickDurLe; infer_instance

/-- Coalescing loop of `normalizeSameMidiOverlaps` (the `kept` array built
in reverse): trims or replaces same-pitch overlapping notes. -/
def coalesceGo : List Note → List Note → List Note
  | kept, [] => kept.reverse
  | [], current :: rest => coalesceGo [current] rest
  | prev :: keptTail, current :: rest =>
    if current.ticks < prev.ticks + prev.durationTicks then
      (if 1 ≤ current.ticks - prev.ticks then
        coalesceGo ({ prev with durationTicks := current.ticks - prev.ticks } :: keptTail) rest
      else if prev.durationTicks < current.durationTicks then
        coalesceGo (current :: keptTail) rest
      else
        coalesceGo (prev :: keptTail) rest)
    else coalesceGo (current :: prev :: keptTail) rest
termination_by _ l => l.length

/-- JS `normalizeSameMidiOverlaps(notes)`: group by pitch (first-occurrence
key order of the JS `Map`), sort each group, coalesce, re-sort by time. -/
def normalizeSameMidiOverlaps (notes : List Note) : List Note :=
  let keys := (notes.map Note.midi).dedup
  sortNotesByTime ((keys.map (fun m =>
    coalesceGo [] (List.insertionSort tickDurLe (notes.filter (fun n => n.midi = m))))).flatten)

/-- JS `pitchQuantile(notes, ratio)`. -/
def pitchQuantile (notes : List Note) (ratio : Rat) : Option Int :=
  if notes = [] then none
  else
    let sorted := List.insertionSort (· ≤ ·) (notes.map Note.midi)
    if sorted = [] then none
    else
      let clampedRatio := clampQ ratio 0 1
      let index := clampZ (Int.floor (((sorted.length : Int) - 1 : Int) * clampedRatio))
        0 ((sorted.length : Int) - 1)
      some (sorted.getD index.toNat 0)

/-- JS `rebalanceHighNotes(melodyNotes, chord1Notes, chord2Notes)`.
`pitchQuantile` returning `none` models the JS `null` threshold, for which
`Number.isFinite` is false. -/
def rebalanceHighNotes (melodyNotes chord1Notes chord2Notes : List Note) :
    List Note × List Note × List Note :=
  let melody := sortNotesByTime melodyNotes
  let chord1 := sortNotesByTime chord1Notes
  let chord2 := sortNotesByTime chord2Notes
  let allNotes := melody ++ chord1 ++ chord2
  if allNotes.length < 24 ∨ chord2 = [] then (melody, chord1, chord2)
  else
    match pitchQuantile allNotes (95 / 100) with
    | none => (melody, chord1, chord2)
    | some highThreshold =>
      let promoteFromChord2 := chord2.filter (fun n => highThreshold ≤ n.midi)
      let reducedChord2 := chord2.filter (fun n => n.midi < highThreshold)
      let boostedChord1 := mergeUniqueNotes chord1 promoteFromChord2
      match pitchQuantile allNotes (985 / 1000) with
      | none => (melody, boostedChord1, reducedChord2)
      | some accentThreshold =>
        let melodyAccents := boostedChord1.filter (fun n => accentThreshold ≤ n.midi)
        (normalizeSameMidiOverlaps (mergeUniqueNotes melody melodyAccents),
         normalizeSameMidiOverlaps boostedChord1,
         normalizeSameMidiOverlaps reducedChord2)

/-- CLAIM C9: when the combined pool has fewer than 24 notes or the chord2
pool is empty, `rebalanceHighNotes` moves no note between pools: each
returned pool is the corresponding input pool re-sorted by start time. -/
theorem rebalanceHighNotes_frame (m c1 c2 : List Note)
    (h : m.length + c1.length + c2.length < 24 ∨ c2 = []) :
    rebalanceHighNotes m c1 c2 = (sortNotesByTime m, sortNotesByTime c1, sortNotesByTime c2) ∧
    (rebalanceHighNotes m c1 c2).1.Perm m ∧
    (rebalanceHighNotes m c1 c2).2.1.Perm c1 ∧
    (rebalanceHighNotes m c1 c2).2.2.Perm c2 := by
  have hperm : ∀ l : List Note, (sortNotesByTime l).Perm l :=
    fun l => List.perm_insertionSort noteLe l
  have hguard : (sortNotesByTime m ++ sortNotesByTime c1 ++ sortNotesByTime c2).length < 24 ∨
      sortNotesByTime c2 = [] := by
    rcases h with h | h
    · left
      rw [List.length_append, List.length_append,
        (hperm m).length_eq, (hperm c1).length_eq, (hperm c2).length_eq]
      omega
    · right
      subst h
      simp [sortNotesByTime, List.insertionSort]
  have heq : rebalanceHighNotes m c1 c2 =
      (sortNotesByTime m, sortNotesByTime c1, sortNotesByTime c2) := by
    rw [rebalanceHighNotes]
    simp only [if_pos hguard]
  exact ⟨heq, by rw [heq]; exact hperm m, by rw [heq]; exact hperm c1,
    by rw [heq]; exact hperm c2⟩

/-- Witness for C9 on empty pools. -/
theorem rebalanceHighNotes_frame_witness :
    ((([] : List Note).length + ([] : List Note).length + ([] : List Note).length < 24 ∨
      ([] : List Note) = []) ∧
     rebalanceHighNotes [] [] [] = (sortNotesByTime [], sortNotesByTime [], sortNotesByTime []) ∧
     (rebalanceHighNotes [] [] []).1.Perm [] ∧
     (rebalanceHighNotes [] [] []).2.1.Perm [] ∧
     (rebalanceHighNotes [] [] []).2.2.Perm []) :=
  ⟨Or.inl (by decide), rebalanceHighNotes_frame [] [] [] (Or.inl (by decide))⟩

/-! ### Fidelity scoring -/

/-- JS `scorePitchMatch(referencePitch, candidatePitch)`. -/
def scorePitchMatch (referencePitch candidatePitch : StepValue) : Rat :=
  match referencePitch, candidatePitch with
  | none, none => 35 / 100
  | none, some _ => -(12 / 10)
  | some _, none => -(12 / 10)
  | some r, some c =>
    let distance := (r - c).natAbs
    if distance = 0 then 2
    else if distance = 1 then 145 / 100
    else if distance = 2 then 105 / 100
    else if distance ≤ 4 then 4 / 10
    else if distance ≤ 7 then -(25 / 100)
    else -(85 / 100)

/-- JS `sampleSequenceAtTick(sequence, stepTicks, tick)`. -/
def sampleSequenceAtTick (sequence : List StepValue) (stepTicks : Rat) (tick : Rat) : StepValue :=
  if sequence = [] then none
  else
    let rawIndex := Int.floor (tick / stepTicks)
    if rawIndex < 0 then sequence.headD none
    else if (sequence.length : Int) ≤ rawIndex then sequence.getLastD none
    else (sequence.get? rawIndex.toNat).getD none

/-- Movement-agreement bonus of the fidelity loop (the leap-comparison
branch shared by `evaluateSequenceFidelity` and its windowed variant). -/
def movementBonus (referencePitch candidatePitch prevReference prevCandidate : StepValue) : Rat :=
  match referencePitch, candidatePitch, prevReference, prevCandidate with
  | some rp, some cp, some pr, some pc =>
    let moveDistance := ((rp - pr) - (cp - pc)).natAbs
    if moveDistance = 0 then 2 / 10
    else if moveDistance ≤ 2 then 8 / 100
    else if 7 ≤ moveDistance then -(12 / 100)
    else 0
  | _, _, _, _ => 0

/-- Per-step accumulation of `evaluateSequenceFidelity`. -/
def fidelityStep (candidateSequence : List StepValue) (candidateStepTicks referenceStepTicks : Rat)
    (i : Nat) (referencePitch prevReference prevCandidate : StepValue) : Rat × StepValue :=
  let tick := (i : Rat) * referenceStepTicks
  let candidatePitch := sampleSequenceAtTick candidateSequence candidateStepTicks tick
  let referenceChanged := referencePitch ≠ prevReference
  let candidateChanged := candidatePitch ≠ prevCandidate
  let transition := if referenceChanged ↔ candidateChanged then (15 : Rat) / 100 else 0
  let movement := if referenceChanged ∧ candidateChanged then
      movementBonus referencePitch candidatePitch prevReference prevCandidate
    else 0
  (scorePitchMatch referencePitch candidatePitch + transition + movement, candidatePitch)

/-- Main loop of `evaluateSequenceFidelity`. -/
def fidelityGo (candidateSequence : List StepValue) (candidateStepTicks referenceStepTicks : Rat) :
    List StepValue → Nat → StepValue → StepValue → Rat → Rat
  | [], _, _, _, acc => acc
  | referencePitch :: rest, i, prevReference, prevCandidate, acc =>
    let s := fidelityStep candidateSequence candidateStepTicks referenceStepTicks i
      referencePitch prevReference prevCandidate
    fidelityGo candidateSequence candidateStepTicks referenceStepTicks rest (i + 1)
      referencePitch s.2 (acc + s.1)

/-- JS `evaluateSequenceFidelity(...)`: `none` models the JS `-Infinity`
returned for an empty reference or candidate. -/
def evaluateSequenceFidelity (referenceSequence : List StepValue) (referenceStepTicks : Rat)
    (candidateSequence : List StepValue) (candidateStepTicks : Rat) : Option Rat :=
  if referenceSequence = [] ∨ candidateSequence = [] then none
  else some (fidelityGo candidateSequence candidateStepTicks referenceStepTicks
    referenceSequence 0 none none 0 / (referenceSequence.length : Rat))

/-- CLAIM C6 counterexample: for the reference `[rest]` and the identical
candidate `[rest]`, the per-step pitch-match value at step 0 is 0.35, not
the claimed maximum 2.0. -/
theorem scoreExactMatch_counterexample :
    scorePitchMatch (([none] : List StepValue).headD none)
      (sampleSequenceAtTick [none] 1 ((0 : Rat) * 1)) = 35 / 100 ∧
    ((35 : Rat) / 100) ≠ 2 := by
  constructor
  · with_unfolding_all decide
  · with_unfolding_all decide

theorem sampleSequenceAtTick_self (ref : List StepValue) (st : Rat) (hst : 0 < st)
    (i : Nat) (hi : i < ref.length) :
    sampleSequenceAtTick ref st ((i : Rat) * st) = ref.getD i none := by
  have hne : ref ≠ [] := by
    intro h; rw [h] at hi; simp at hi
  rw [sampleSequenceAtTick, if_neg hne]
  have hdiv : ((i : Rat) * st) / st = (i : Rat) := by
    field_simp
  have hfloor : Int.floor (((i : Rat) * st) / st) = (i : Int) := by
    rw [hdiv]; exact Int.floor_natCast i
  simp only [hfloor]
  rw [if_neg (by omega), if_neg (by omega)]
  simp [List.getD, Int.toNat_natCast]

/-- CLAIM C6 (amended): for every reference sequence that contains no rest
step, the candidate identical to the reference (same sequence, same step
ticks) receives the maximum per-step pitch-match value 2.0 at every step,
so the pitch-match component of the fidelity sums to `2 * totalSteps`
(mean 2.0) before the transition/movement bonuses. On rest steps the code
awards 0.35 instead, which is why the no-rest restriction is required. -/
theorem scoreExactMatch_amended (ref : List StepValue) (st : Rat) (hst : 0 < st)
    (hne : ref ≠ []) (hnorest : ∀ x ∈ ref, x ≠ none) :
    (∀ i, i < ref.length →
      scorePitchMatch (ref.getD i none) (sampleSequenceAtTick ref st ((i : Rat) * st)) = 2) ∧
    ((List.range ref.length).map (fun i =>
      scorePitchMatch (ref.getD i none) (sampleSequenceAtTick ref st ((i : Rat) * st)))).sum =
      2 * (ref.length : Rat) := by
  have hstep : ∀ i, i < ref.length →
      scorePitchMatch (ref.getD i none) (sampleSequenceAtTick ref st ((i : Rat) * st)) = 2 := by
    intro i hi
    rw [sampleSequenceAtTick_self ref st hst i hi]
    have hmem : ref.getD i none ∈ ref := by
      rw [List.getD_eq_get ref none hi]
      exact List.get_mem ref i hi
    obtain ⟨p, hp⟩ := Option.ne_none_iff_exists'.mp (hnorest _ hmem)
    rw [hp, scorePitchMatch]
    simp
  refine ⟨hstep, ?_⟩
  have hmapeq : (List.range ref.length).map (fun i =>
      scorePitchMatch (ref.getD i none) (sampleSequenceAtTick ref st ((i : Rat) * st))) =
      (List.range ref.length).map (fun _ => (2 : Rat)) := by
    apply List.map_congr_left
    intro i hi
    exact hstep i (List.mem_range.mp hi)
  rw [hmapeq, List.map_const']
  rw [List.sum_replicate, List.length_range, nsmul_eq_mul]
  ring

/-- Witness for C6 amended on the two-step all-pitch reference `[60, 62]`
with unit step ticks. -/
theorem scoreExactMatch_amended_witness :
    ((0 : Rat) < 1 ∧ ([some 60, some 62] : List StepValue) ≠ [] ∧
      (∀ x ∈ ([some 60, some 62] : List StepValue), x ≠ none)) ∧
    ((∀ i, i < ([some 60, some 62] : List StepValue).length →
      scorePitchMatch (([some 60, some 62] : List StepValue).getD i none)
        (sampleSequenceAtTick [some 60, some 62] 1 ((i : Rat) * 1)) = 2) ∧
    ((List.range ([some 60, some 62] : List StepValue).length).map (fun i =>
      scorePitchMatch (([some 60, some 62] : List StepValue).getD i none)
        (sampleSequenceAtTick [some 60, some 62] 1 ((i : Rat) * 1)))).sum =
      2 * (([some 60, some 62] : List StepValue).length : Rat)) :=
  ⟨⟨by norm_num, by decide, by decide⟩,
    scoreExactMatch_amended [some 60, some 62] 1 (by norm_num) (by decide) (by decide)⟩

end MidToChord

namespace ResultToMid

open MidToChord (clampZ clampQ)

/-! ### Decoder (`result-to-mid.js`) -/

/-- JS `NOTE_TO_SEMITONE` lookup table. -/
def NOTE_TO_SEMITONE (c : Char) : Option Int :=
  if c = 'c' then some 0
  else if c = 'd' then some 2
  else if c = 'e' then some 4
  else if c = 'f' then some 5
  else if c = 'g' then some 7
  else if c = 'a' then some 9
  else if c = 'b' then some 11
  else none

/-- Mutable scan state of `parseMml` (the JS `state` record; `index` is the
parse cursor). -/
structure MmlState where
  index : Nat
  beat : Rat
  octave : Int
  defaultLength : Nat
  defaultLengthDots : Nat
  volume : Int
  tempo : Int
deriving Repr

/-- JS `readInteger(text, state)`: consume a maximal run of decimal digits;
`none` when no digit is present. -/
def readIntegerFrom (text : List Char) (i : Nat) : Option Nat × Nat :=
  let digits := (text.drop i).takeWhile Char.isDigit
  if digits = [] then (none, i)
  else (some (digits.foldl (fun acc c => 10 * acc + (c.toNat - 48)) 0), i + digits.length)

/-- JS `skipWhitespace(text, state)`. -/
def skipWhitespaceFrom (text : List Char) (i : Nat) : Nat :=
  i + ((text.drop i).takeWhile Char.isWhitespace).length

/-- Dot-counting loop shared by `readDuration` and the `l` directive. -/
def countDotsFrom (text : List Char) (i : Nat) : Nat × Nat :=
  let dots := (text.drop i).takeWhile (fun c => c = '.')
  (dots.length, i + dots.length)

/-- Loop body of `durationFromLength`: `factor += add; add /= 2` repeated
`dots` times. -/
def dotFactorGo : Nat → Rat → Rat → Rat
  | 0, factor, _ => factor
  | n + 1, factor, add => dotFactorGo n (factor + add) (add / 2)

/-- JS `durationFromLength(denominator, dots)`: beats of a `1/denominator`
note with the given dot count. -/
def durationFromLength (denominator : Nat) (dots : Nat) : Rat :=
  let safeDenominator := if 0 < denominator then denominator else 4
  (4 / (safeDenominator : Rat)) * dotFactorGo dots 1 (1 / 2)

/-- JS `readDuration(text, state)`: parse an optional denominator and dots,
falling back to the running default length. Returns (beats, new index). -/
def readDuration (text : List Char) (i : Nat) (defaultLength defaultLengthDots : Nat) :
    Rat × Nat :=
  let r := readIntegerFrom text i
  let d := countDotsFrom text r.2
  match r.1 with
  | some v =>
    if 0 < v then (durationFromLength v d.1, d.2)
    else
      (durationFromLength defaultLength (if 0 < d.1 then d.1 else defaultLengthDots), d.2)
  | none =>
    (durationFromLength defaultLength (if 0 < d.1 then d.1 else defaultLengthDots), d.2)

/-- Playable unit returned by `parsePlayableUnit` (`kind` note/rest). -/
structure PlayableUnit where
  isNote : Bool
  midi : Int
  duration : Rat
deriving Repr

/-- JS `parsePlayableUnit(text, state)`: rest, numbered note (`n60`), or
named pitch with optional accidental, each followed by a duration. Returns
the unit (or `none`, the JS `null`) and the new cursor. -/
def parsePlayableUnit (text : List Char) (st : MmlState) : Option PlayableUnit × Nat :=
  let i0 := skipWhitespaceFrom text st.index
  if i0 < text.length then
    let ch := (text.getD i0 ' ').toLower
    if ch = 'r' then
      let d := readDuration text (i0 + 1) st.defaultLength st.defaultLengthDots
      (some ⟨false, 0, d.1⟩, d.2)
    else if ch = 'n' then
      let r := readIntegerFrom text (i0 + 1)
      match r.1 with
      | none => (none, r.2)
      | some v =>
        let d := readDuration text r.2 st.defaultLength st.defaultLengthDots
        (some ⟨true, clampZ v 0 127, d.1⟩, d.2)
    else
      match NOTE_TO_SEMITONE ch with
      | some semitone0 =>
        let acc :=
          if i0 + 1 < text.length then
            let a := text.getD (i0 + 1) ' '
            if a = '+' ∨ a = '#' then (semitone0 + 1, i0 + 2)
            else if a = '-' then (semitone0 - 1, i0 + 2)
            else (semitone0, i0 + 1)
          else (semitone0, i0 + 1)
        let midi := clampZ ((st.octave + 1) * 12 + acc.1) 0 127
        let d := readDuration text acc.2 st.defaultLength st.defaultLengthDots
        (some ⟨true, midi, d.1⟩, d.2)
      | none => (none, i0)
  else (none, i0)

/-- JS `volumeToVelocity(volume)`. -/
def volumeToVelocity (volume : Int) : Rat :=
  let normalized := (clampZ volume 0 15 : Rat) / 15
  clampQ (15 / 100 + normalized * (85 / 100)) 0 1

/-- Decoded note event (beat-relative). -/
structure NoteEvent where
  midi : Int
  startBeat : Rat
  durationBeats : Rat
  velocity : Rat
deriving Repr

/-- Decoded tempo change. -/
structure TempoChange where
  beat : Rat
  bpm : Int
deriving Repr

/-- Octave-shift scan inside the tie loop of `parseMml` (`<`/`>` characters
between `&` and the tied unit). -/
def octaveShifts (text : List Char) : Nat → Int → Nat × Int
  | i, oct =>
    if h : i < text.length ∧ ((text.getD i ' ') = '<' ∨ (text.getD i ' ') = '>') then
      if (text.getD i ' ') = '<' then octaveShifts text (i + 1) (clampZ (oct - 1) 0 9)
      else octaveShifts text (i + 1) (clampZ (oct + 1) 0 9)
    else (i, oct)
termination_by i _ => text.length - i
decreasing_by all_goals (simp at h; omega)

theorem skipWhitespaceFrom_ge (text : List Char) (i : Nat) :
    i ≤ skipWhitespaceFrom text i := by
  simp [skipWhitespaceFrom]

theorem readIntegerFrom_ge (text : List Char) (i : Nat) :
    i ≤ (readIntegerFrom text i).2 := by
  rw [readIntegerFrom]
  by_cases h : (text.drop i).takeWhile Char.isDigit = [] <;> simp [h]

theorem countDotsFrom_ge (text : List Char) (i : Nat) :
    i ≤ (countDotsFrom text i).2 := by
  simp [countDotsFrom]

theorem readDuration_ge (text : List Char) (i : Nat) (dl dd : Nat) :
    i ≤ (readDuration text i dl dd).2 := by
  rw [readDuration]
  have h1 := readIntegerFrom_ge text i
  have h2 := countDotsFrom_ge text (readIntegerFrom text i).2
  rcases hr : (readIntegerFrom text i).1 with _ | v
  · simpa [hr] using by omega
  · by_cases hv : 0 < v <;> simpa [hr, hv] using by omega

theorem octaveShifts_ge (text : List Char) (i : Nat) (oct : Int) :
    i ≤ (octaveShifts text i oct).1 := by
  rw [octaveShifts]
  split
  · next h =>
    split
    · have := octaveShifts_ge text (i + 1) (clampZ (oct - 1) 0 9)
      omega
    · have := octaveShifts_ge text (i + 1) (clampZ (oct + 1) 0 9)
      omega
  · omega
termination_by text.length - i
decreasing_by all_goals (rename_i h _; simp at h; omega)

theorem parsePlayableUnit_ge (text : List Char) (st : MmlState) :
    st.index ≤ (parsePlayableUnit text st).2 := by
  rw [parsePlayableUnit]
  have h0 := skipWhitespaceFrom_ge text st.index
  set i0 := skipWhitespaceFrom text st.index with hi0
  by_cases hlen : i0 < text.length
  · simp only [if_pos hlen]
    set ch := (text.getD i0 ' ').toLower with hch
    by_cases hr : ch = 'r'
    · have := readDuration_ge text (i0 + 1) st.defaultLength st.defaultLengthDots
      simp only [if_pos hr]
      omega
    · by_cases hn : ch = 'n'
      · simp only [if_neg hr, if_pos hn]
        have h1 := readIntegerFrom_ge text (i0 + 1)
        have h2 := readDuration_ge text (readIntegerFrom text (i0 + 1)).2
          st.defaultLength st.defaultLengthDots
        rcases hv : (readIntegerFrom text (i0 + 1)).1 with _ | v
        · simp only [hv]; omega
        · simp only [hv]; omega
      · simp only [if_neg hr, if_neg hn]
        rcases hsem : NOTE_TO_SEMITONE ch with _ | s
        · simp only [hsem]; omega
        · simp only [hsem]
          by_cases hacc : i0 + 1 < text.length
          · simp only [if_pos hacc]
            set a := text.getD (i0 + 1) ' ' with ha
            by_cases h1 : a = '+' ∨ a = '#'
            · have := readDuration_ge text (i0 + 2) st.defaultLength st.defaultLengthDots
              simp only [if_pos h1]
              omega
            · by_cases h2 : a = '-'
              · have := readDuration_ge text (i0 + 2) st.defaultLength st.defaultLengthDots
                simp only [if_neg h1, if_pos h2]
                omega
              · have := readDuration_ge text (i0 + 1) st.defaultLength st.defaultLengthDots
                simp only [if_neg h1, if_neg h2]
                omega
          · have := readDuration_ge text (i0 + 1) st.defaultLength st.defaultLengthDots
            simp only [if_neg hacc]
            omega
  · simp only [if_neg hlen]
    omega

/-- Strict decrease of the remaining-character measure across one tie-loop
iteration (the cursor always moves past the consumed `&`). -/
theorem tieStep_lt (text : List Char) (idx : Nat) (st1 : MmlState)
    (hlt : skipWhitespaceFrom text idx < text.length)
    (hge : skipWhitespaceFrom text (skipWhitespaceFrom text idx + 1) ≤ st1.index) :
    text.length - (parsePlayableUnit text st1).2 < text.length - idx := by
  have h1 := skipWhitespaceFrom_ge text idx
  have h2 := skipWhitespaceFrom_ge text (skipWhitespaceFrom text idx + 1)
  have h4 := parsePlayableUnit_ge text st1
  omega

/-- Octave/cursor state after consuming the `&` and octave shifts of one
tie-loop iteration. -/
def tieState (text : List Char) (st : MmlState) : MmlState :=
  { st with
    index := (octaveShifts text
      (skipWhitespaceFrom text (skipWhitespaceFrom text st.index + 1)) st.octave).1,
    octave := (octaveShifts text
      (skipWhitespaceFrom text (skipWhitespaceFrom text st.index + 1)) st.octave).2 }

theorem tieState_index_ge (text : List Char) (st : MmlState) :
    skipWhitespaceFrom text (skipWhitespaceFrom text st.index + 1) ≤ (tieState text st).index :=
  octaveShifts_ge text (skipWhitespaceFrom text (skipWhitespaceFrom text st.index + 1)) st.octave

/-- Tie-continuation loop of `parseMml`: while the next non-space character
is `&`, consume it, apply octave shifts, parse the tied unit and accumulate
its duration. Breaking restores the checkpoint only when no `&` follows. -/
def tieGo (text : List Char) (st : MmlState) (total : Rat) : MmlState × Rat :=
  if hj : skipWhitespaceFrom text st.index < text.length ∧
      text.getD (skipWhitespaceFrom text st.index) ' ' = '&' then
    match (parsePlayableUnit text (tieState text st)).1 with
    | none => ({ tieState text st with index := (parsePlayableUnit text (tieState text st)).2 }, total)
    | some u => tieGo text
        { tieState text st with index := (parsePlayableUnit text (tieState text st)).2 }
        (total + u.duration)
  else (st, total)
termination_by text.length - st.index
decreasing_by
  exact tieStep_lt text st.index _ hj.1 (tieState_index_ge text st)

theorem tieGo_index_ge_aux :
    ∀ (n : Nat) (text : List Char) (st : MmlState) (total : Rat),
    text.length - st.index ≤ n → st.index ≤ (tieGo text st total).1.index := by
  intro n
  induction n with
  | zero =>
    intro text st total hn
    unfold tieGo
    split
    · next hj =>
      exfalso
      have h1 := skipWhitespaceFrom_ge text st.index
      omega
    · exact Nat.le.refl
  | succ n ih =>
    intro text st total hn
    unfold tieGo
    split
    · next hj =>
      have h1 := skipWhitespaceFrom_ge text st.index
      have h2 := skipWhitespaceFrom_ge text (skipWhitespaceFrom text st.index + 1)
      have h3 := tieState_index_ge text st
      have h4 := parsePlayableUnit_ge text (tieState text st)
      have hproj : ({ tieState text st with
          index := (parsePlayableUnit text (tieState text st)).2 } : MmlState).index =
          (parsePlayableUnit text (tieState text st)).2 := rfl
      split
      · show st.index ≤ (parsePlayableUnit text (tieState text st)).2
        omega
      · rename_i u hu
        have hlt := tieStep_lt text st.index (tieState text st) hj.1 (tieState_index_ge text st)
        have h5 := ih text
          { tieState text st with index := (parsePlayableUnit text (tieState text st)).2 }
          (total + u.duration) (by rw [hproj]; omega)
        rw [hproj] at h5
        omega
    · exact Nat.le.refl

theorem tieGo_index_ge (text : List Char) (st : MmlState) (total : Rat) :
    st.index ≤ (tieGo text st total).1.index :=
  tieGo_index_ge_aux (text.length - st.index) text st total (Nat.le_refl _)

theorem tieGo_beat_volume_aux :
    ∀ (n : Nat) (text : List Char) (st : MmlState) (total : Rat),
    text.length - st.index ≤ n →
    (tieGo text st total).1.beat = st.beat ∧ (tieGo text st total).1.volume = st.volume := by
  intro n
  induction n with
  | zero =>
    intro text st total hn
    unfold tieGo
    split
    · next hj =>
      exfalso
      have h1 := skipWhitespaceFrom_ge text st.index
      omega
    · exact ⟨rfl, rfl⟩
  | succ n ih =>
    intro text st total hn
    unfold tieGo
    split
    · next hj =>
      have hproj : ({ tieState text st with
          index := (parsePlayableUnit text (tieState text st)).2 } : MmlState).index =
          (parsePlayableUnit text (tieState text st)).2 := rfl
      split
      · exact ⟨rfl, rfl⟩
      · rename_i u hu
        have hlt := tieStep_lt text st.index (tieState text st) hj.1 (tieState_index_ge text st)
        have h5 := ih text
          { tieState text st with index := (parsePlayableUnit text (tieState text st)).2 }
          (total + u.duration) (by rw [hproj]; omega)
        exact h5
    · exact ⟨rfl, rfl⟩

theorem tieGo_beat_volume (text : List Char) (st : MmlState) (total : Rat) :
    (tieGo text st total).1.beat = st.beat ∧ (tieGo text st total).1.volume = st.volume :=
  tieGo_beat_volume_aux (text.length - st.index) text st total (Nat.le_refl _)

theorem parsePlayableUnit_some_gt (text : List Char) (st : MmlState) (u : PlayableUnit)
    (h : (parsePlayableUnit text st).1 = some u) :
    st.index < (parsePlayableUnit text st).2 := by
  have h0 := skipWhitespaceFrom_ge text st.index
  rw [parsePlayableUnit] at h ⊢
  set i0 := skipWhitespaceFrom text st.index with hi0
  by_cases hlen : i0 < text.length
  · simp only [if_pos hlen] at h ⊢
    set ch := (text.getD i0 ' ').toLower with hch
    by_cases hr : ch = 'r'
    · have := readDuration_ge text (i0 + 1) st.defaultLength st.defaultLengthDots
      simp only [if_pos hr] at h ⊢
      omega
    · by_cases hn : ch = 'n'
      · simp only [if_neg hr, if_pos hn] at h ⊢
        have h1 := readIntegerFrom_ge text (i0 + 1)
        have h2 := readDuration_ge text (readIntegerFrom text (i0 + 1)).2
          st.defaultLength st.defaultLengthDots
        rcases hv : (readIntegerFrom text (i0 + 1)).1 with _ | v
        · rw [hv] at h; exact absurd h (by simp)
        · simp only [hv] at h ⊢; omega
      · simp only [if_neg hr, if_neg hn] at h ⊢
        rcases hsem : NOTE_TO_SEMITONE ch with _ | s
        · rw [hsem] at h; exact absurd h (by simp)
        · simp only [hsem] at h ⊢
          by_cases hacc : i0 + 1 < text.length
          · simp only [if_pos hacc] at h ⊢
            set a := text.getD (i0 + 1) ' ' with ha
            by_cases h1 : a = '+' ∨ a = '#'
            · have := readDuration_ge text (i0 + 2) st.defaultLength st.defaultLengthDots
              simp only [if_pos h1] at h ⊢
              omega
            · by_cases h2 : a = '-'
              · have := readDuration_ge text (i0 + 2) st.defaultLength st.defaultLengthDots
                simp only [if_neg h1, if_pos h2] at h ⊢
                omega
              · have := readDuration_ge text (i0 + 1) st.defaultLength st.defaultLengthDots
                simp only [if_neg h1, if_neg h2] at h ⊢
                omega
          · have := readDuration_ge text (i0 + 1) st.defaultLength st.defaultLengthDots
            simp only [if_neg hacc] at h ⊢
            omega
  · simp only [if_neg hlen] at h
    exact absurd h (by simp)

/-- Current character of the main scan, lowercased (`text[i].toLowerCase()`). -/
def curCharAt (text : List Char) (i : Nat) : Char := (text.getD i ' ').toLower

/-- Main scan loop of `parseMml`: one iteration per recognized directive,
tied note group, or skipped character. Terminates because the cursor
strictly advances on every iteration. -/
def parseGo (text : List Char) (st : MmlState) (events : List NoteEvent)
    (tcs : List TempoChange) : MmlState × List NoteEvent × List TempoChange :=
  if hlt : st.index < text.length then
    if h0 : text.length ≤ skipWhitespaceFrom text st.index then
      ({ st with index := skipWhitespaceFrom text st.index }, events, tcs)
    else
      if curCharAt text (skipWhitespaceFrom text st.index) = ',' ∨
         curCharAt text (skipWhitespaceFrom text st.index) = ';' ∨
         curCharAt text (skipWhitespaceFrom text st.index) = '@' then
        parseGo text { st with index := skipWhitespaceFrom text st.index + 1 } events tcs
      else if curCharAt text (skipWhitespaceFrom text st.index) = 't' then
        match (readIntegerFrom text (skipWhitespaceFrom text st.index + 1)).1 with
        | some v =>
          if 0 < v then
            parseGo text
              { st with
                index := (readIntegerFrom text (skipWhitespaceFrom text st.index + 1)).2,
                tempo := clampZ v 20 400 }
              events (tcs ++ [⟨st.beat, clampZ v 20 400⟩])
          else
            parseGo text
              { st with index := (readIntegerFrom text (skipWhitespaceFrom text st.index + 1)).2 }
              events tcs
        | none =>
          parseGo text
            { st with index := (readIntegerFrom text (skipWhitespaceFrom text st.index + 1)).2 }
            events tcs
      else if curCharAt text (skipWhitespaceFrom text st.index) = 'v' then
        match (readIntegerFrom text (skipWhitespaceFrom text st.index + 1)).1 with
        | some v =>
          parseGo text
            { st with
              index := (readIntegerFrom text (skipWhitespaceFrom text st.index + 1)).2,
              volume := clampZ v 0 15 }
            events tcs
        | none =>
          parseGo text
            { st with index := (readIntegerFrom text (skipWhitespaceFrom text st.index + 1)).2 }
            events tcs
      else if curCharAt text (skipWhitespaceFrom text st.index) = 'o' then
        match (readIntegerFrom text (skipWhitespaceFrom text st.index + 1)).1 with
        | some v =>
          parseGo text
            { st with
              index := (readIntegerFrom text (skipWhitespaceFrom text st.index + 1)).2,
              octave := clampZ v 0 9 }
            events tcs
        | none =>
          parseGo text
            { st with index := (readIntegerFrom text (skipWhitespaceFrom text st.index + 1)).2 }
            events tcs
      else if curCharAt text (skipWhitespaceFrom text st.index) = 'l' then
        parseGo text
          { st with
            index := (countDotsFrom text
              (readIntegerFrom text (skipWhitespaceFrom text st.index + 1)).2).2,
            defaultLength :=
              match (readIntegerFrom text (skipWhitespaceFrom text st.index + 1)).1 with
              | some v => if 0 < v then v else st.defaultLength
              | none => st.defaultLength,
            defaultLengthDots := (countDotsFrom text
              (readIntegerFrom text (skipWhitespaceFrom text st.index + 1)).2).1 }
          events tcs
      else if curCharAt text (skipWhitespaceFrom text st.index) = '<' then
        parseGo text
          { st with
            index := skipWhitespaceFrom text st.index + 1,
            octave := clampZ (st.octave - 1) 0 9 }
          events tcs
      else if curCharAt text (skipWhitespaceFrom text st.index) = '>' then
        parseGo text
          { st with
            index := skipWhitespaceFrom text st.index + 1,
            octave := clampZ (st.octave + 1) 0 9 }
          events tcs
      else if curCharAt text (skipWhitespaceFrom text st.index) = '&' then
        parseGo text { st with index := skipWhitespaceFrom text st.index + 1 } events tcs
      else
        if hp : (parsePlayableUnit text
            { st with index := skipWhitespaceFrom text st.index }).1.isSome then
          parseGo text
            { (tieGo text
                { st with index := (parsePlayableUnit text
                    { st with index := skipWhitespaceFrom text st.index }).2 }
                ((parsePlayableUnit text
                  { st with index := skipWhitespaceFrom text st.index }).1.get hp).duration).1 with
              beat := st.beat + (tieGo text
                { st with index := (parsePlayableUnit text
                    { st with index := skipWhitespaceFrom text st.index }).2 }
                ((parsePlayableUnit text
                  { st with index := skipWhitespaceFrom text st.index }).1.get hp).duration).2 }
            (if ((parsePlayableUnit text
                { st with index := skipWhitespaceFrom text st.index }).1.get hp).isNote then
              events ++ [⟨((parsePlayableUnit text
                  { st with index := skipWhitespaceFrom text st.index }).1.get hp).midi,
                st.beat,
                (tieGo text
                  { st with index := (parsePlayableUnit text
                      { st with index := skipWhitespaceFrom text st.index }).2 }
                  ((parsePlayableUnit text
                    { st with index := skipWhitespaceFrom text st.index }).1.get hp).duration).2,
                volumeToVelocity st.volume⟩]
            else events)
            tcs
        else
          parseGo text
            { st with index := (parsePlayableUnit text
                { st with index := skipWhitespaceFrom text st.index }).2 + 1 }
            events tcs
  else (st, events, tcs)
termination_by text.length - st.index
decreasing_by
  all_goals (try dsimp only)
  all_goals (
    first
    | (have hA := skipWhitespaceFrom_ge text st.index
       have hB := readIntegerFrom_ge text (skipWhitespaceFrom text st.index + 1)
       have hC := countDotsFrom_ge text
         (readIntegerFrom text (skipWhitespaceFrom text st.index + 1)).2
       omega)
    | (have hA := skipWhitespaceFrom_ge text st.index
       have hD := parsePlayableUnit_ge text { st with index := skipWhitespaceFrom text st.index }
       have hDi : ({ st with index := skipWhitespaceFrom text st.index } : MmlState).index =
         skipWhitespaceFrom text st.index := rfl
       rw [hDi] at hD
       omega)
    | (have hA := skipWhitespaceFrom_ge text st.index
       have hD := parsePlayableUnit_some_gt text
         { st with index := skipWhitespaceFrom text st.index }
         ((parsePlayableUnit text
           { st with index := skipWhitespaceFrom text st.index }).1.get hp)
         (Option.some_get hp).symm
       have hDi : ({ st with index := skipWhitespaceFrom text st.index } : MmlState).index =
         skipWhitespaceFrom text st.index := rfl
       have hE := tieGo_index_ge text
         { st with index := (parsePlayableUnit text
             { st with index := skipWhitespaceFrom text st.index }).2 }
         ((parsePlayableUnit text
           { st with index := skipWhitespaceFrom text st.index }).1.get hp).duration
       have hEi : ({ st with index := (parsePlayableUnit text
           { st with index := skipWhitespaceFrom text st.index }).2 } : MmlState).index =
           (parsePlayableUnit text { st with index := skipWhitespaceFrom text st.index }).2 := rfl
       rw [hDi] at hD
       rw [hEi] at hE
       omega))

theorem dotFactorGo_pos : ∀ (n : Nat) (factor add : Rat),
    0 < factor → 0 ≤ add → 0 < dotFactorGo n factor add := by
  intro n
  induction n with
  | zero => intro factor add hf _; simpa [dotFactorGo] using hf
  | succ n ih =>
    intro factor add hf ha
    rw [dotFactorGo]
    exact ih (factor + add) (add / 2) (by linarith) (by linarith)

theorem durationFromLength_pos (denominator dots : Nat) :
    0 < durationFromLength denominator dots := by
  rw [durationFromLength]
  have hsafe : (0 : Rat) < ((if 0 < denominator then denominator else 4 : Nat) : Rat) := by
    by_cases h : 0 < denominator
    · simp only [if_pos h]
      exact_mod_cast h
    · simp only [if_neg h]
      norm_num
  have hbase : (0 : Rat) < 4 / ((if 0 < denominator then denominator else 4 : Nat) : Rat) :=
    div_pos (by norm_num) hsafe
  exact mul_pos hbase (dotFactorGo_pos dots 1 (1 / 2) (by norm_num) (by norm_num))

theorem readDuration_pos (text : List Char) (i : Nat) (dl dd : Nat) :
    0 < (readDuration text i dl dd).1 := by
  rw [readDuration]
  rcases hr : (readIntegerFrom text i).1 with _ | v
  · exact durationFromLength_pos _ _
  · by_cases hv : 0 < v
    · simpa [hv] using durationFromLength_pos v (countDotsFrom text (readIntegerFrom text i).2).1
    · simpa [hv] using durationFromLength_pos dl _

theorem parsePlayableUnit_duration_pos (text : List Char) (st : MmlState) (u : PlayableUnit)
    (h : (parsePlayableUnit text st).1 = some u) : 0 < u.duration := by
  rw [parsePlayableUnit] at h
  set i0 := skipWhitespaceFrom text st.index with hi0
  by_cases hlen : i0 < text.length
  · simp only [if_pos hlen] at h
    set ch := (text.getD i0 ' ').toLower with hch
    by_cases hr : ch = 'r'
    · simp only [if_pos hr] at h
      cases h
      exact readDuration_pos text (i0 + 1) st.defaultLength st.defaultLengthDots
    · by_cases hn : ch = 'n'
      · simp only [if_neg hr, if_pos hn] at h
        rcases hv : (readIntegerFrom text (i0 + 1)).1 with _ | v
        · rw [hv] at h; exact absurd h (by simp)
        · rw [hv] at h
          cases h
          exact readDuration_pos text _ st.defaultLength st.defaultLengthDots
      · simp only [if_neg hr, if_neg hn] at h
        rcases hsem : NOTE_TO_SEMITONE ch with _ | s
        · rw [hsem] at h; exact absurd h (by simp)
        · rw [hsem] at h
          cases h
          exact readDuration_pos text _ st.defaultLength st.defaultLengthDots
  · simp only [if_neg hlen] at h
    exact absurd h (by simp)

theorem tieGo_total_ge_aux :
    ∀ (n : Nat) (text : List Char) (st : MmlState) (total : Rat),
    text.length - st.index ≤ n → total ≤ (tieGo text st total).2 := by
  intro n
  induction n with
  | zero =>
    intro text st total hn
    unfold tieGo
    split
    · next hj =>
      exfalso
      have h1 := skipWhitespaceFrom_ge text st.index
      omega
    · exact le_refl total
  | succ n ih =>
    intro text st total hn
    unfold tieGo
    split
    · next hj =>
      have hproj : ({ tieState text st with
          index := (parsePlayableUnit text (tieState text st)).2 } : MmlState).index =
          (parsePlayableUnit text (tieState text st)).2 := rfl
      split
      · exact le_refl total
      · rename_i u hu
        have hpos := parsePlayableUnit_duration_pos text (tieState text st) u hu
        have hlt := tieStep_lt text st.index (tieState text st) hj.1 (tieState_index_ge text st)
        have h5 := ih text
          { tieState text st with index := (parsePlayableUnit text (tieState text st)).2 }
          (total + u.duration) (by rw [hproj]; omega)
        linarith
    · exact le_refl total

theorem tieGo_total_ge (text : List Char) (st : MmlState) (total : Rat) :
    total ≤ (tieGo text st total).2 :=
  tieGo_total_ge_aux (text.length - st.index) text st total (Nat.le_refl _)

/-- Invariant carried by the main scan loop: every emitted event has a
positive duration, event start beats never exceed the running beat cursor,
and start beats are non-decreasing in emission order. -/
theorem parseGo_inv :
    ∀ (n : Nat) (text : List Char) (st : MmlState) (events : List NoteEvent)
      (tcs : List TempoChange),
    text.length - st.index ≤ n →
    (∀ e ∈ events, 0 < e.durationBeats) →
    (∀ e ∈ events, e.startBeat ≤ st.beat) →
    List.Chain' (fun a b => a.startBeat ≤ b.startBeat) events →
    (∀ e ∈ (parseGo text st events tcs).2.1, 0 < e.durationBeats) ∧
    (∀ e ∈ (parseGo text st events tcs).2.1,
      e.startBeat ≤ (parseGo text st events tcs).1.beat) ∧
    List.Chain' (fun a b => a.startBeat ≤ b.startBeat) (parseGo text st events tcs).2.1 := by
  intro n
  induction n with
  | zero =>
    intro text st events tcs hn hdur hle hch
    unfold parseGo
    rw [dif_neg (by omega : ¬st.index < text.length)]
    exact ⟨hdur, hle, hch⟩
  | succ n ih =>
    intro text st events tcs hn hdur hle hch
    have hA := skipWhitespaceFrom_ge text st.index
    by_cases hlt : st.index < text.length
    case neg =>
      unfold parseGo
      rw [dif_neg hlt]
      exact ⟨hdur, hle, hch⟩
    case pos =>
    unfold parseGo
    rw [dif_pos hlt]
    by_cases h0 : text.length ≤ skipWhitespaceFrom text st.index
    case pos =>
      rw [dif_pos h0]
      exact ⟨hdur, hle, hch⟩
    case neg =>
    rw [dif_neg h0]
    have hB := readIntegerFrom_ge text (skipWhitespaceFrom text st.index + 1)
    have hC := countDotsFrom_ge text
      (readIntegerFrom text (skipWhitespaceFrom text st.index + 1)).2
    by_cases hc1 : curCharAt text (skipWhitespaceFrom text st.index) = ',' ∨
        curCharAt text (skipWhitespaceFrom text st.index) = ';' ∨
        curCharAt text (skipWhitespaceFrom text st.index) = '@'
    · rw [if_pos hc1]
      exact ih text _ events tcs (by simp only; omega) hdur hle hch
    rw [if_neg hc1]
    by_cases hct : curCharAt text (skipWhitespaceFrom text st.index) = 't'
    · rw [if_pos hct]
      rcases hv : (readIntegerFrom text (skipWhitespaceFrom text st.index + 1)).1 with _ | v
      · exact ih text _ events tcs (by simp only; omega) hdur hle hch
      · dsimp only
        by_cases hvp : 0 < v
        · rw [if_pos hvp]
          exact ih text _ events _ (by simp only; omega) hdur hle hch
        · rw [if_neg hvp]
          exact ih text _ events tcs (by simp only; omega) hdur hle hch
    rw [if_neg hct]
    by_cases hcv : curCharAt text (skipWhitespaceFrom text st.index) = 'v'
    · rw [if_pos hcv]
      rcases hv : (readIntegerFrom text (skipWhitespaceFrom text st.index + 1)).1 with _ | v
      · exact ih text _ events tcs (by simp only; omega) hdur hle hch
      · exact ih text _ events tcs (by simp only; omega) hdur hle hch
    rw [if_neg hcv]
    by_cases hco : curCharAt text (skipWhitespaceFrom text st.index) = 'o'
    · rw [if_pos hco]
      rcases hv : (readIntegerFrom text (skipWhitespaceFrom text st.index + 1)).1 with _ | v
      · exact ih text _ events tcs (by simp only; omega) hdur hle hch
      · exact ih text _ events tcs (by simp only; omega) hdur hle hch
    rw [if_neg hco]
    by_cases hcl : curCharAt text (skipWhitespaceFrom text st.index) = 'l'
    · rw [if_pos hcl]
      exact ih text _ events tcs (by simp only; omega) hdur hle hch
    rw [if_neg hcl]
    by_cases hclt : curCharAt text (skipWhitespaceFrom text st.index) = '<'
    · rw [if_pos hclt]
      exact ih text _ events tcs (by simp only; omega) hdur hle hch
    rw [if_neg hclt]
    by_cases hcgt : curCharAt text (skipWhitespaceFrom text st.index) = '>'
    · rw [if_pos hcgt]
      exact ih text _ events tcs (by simp only; omega) hdur hle hch
    rw [if_neg hcgt]
    by_cases hcamp : curCharAt text (skipWhitespaceFrom text st.index) = '&'
    · rw [if_pos hcamp]
      exact ih text _ events tcs (by simp only; omega) hdur hle hch
    rw [if_neg hcamp]
    by_cases hp : (parsePlayableUnit text
        { st with index := skipWhitespaceFrom text st.index }).1.isSome
    case neg =>
      rw [dif_neg hp]
      have hD := parsePlayableUnit_ge text { st with index := skipWhitespaceFrom text st.index }
      have hDi : ({ st with index := skipWhitespaceFrom text st.index } : MmlState).index =
        skipWhitespaceFrom text st.index := rfl
      rw [hDi] at hD
      exact ih text _ events tcs (by simp only; omega) hdur hle hch
    case pos =>
    rw [dif_pos hp]
    set u := ((parsePlayableUnit text
      { st with index := skipWhitespaceFrom text st.index }).1.get hp) with hu
    have hsome : (parsePlayableUnit text
        { st with index := skipWhitespaceFrom text st.index }).1 = some u :=
      (Option.some_get hp).symm
    have hD := parsePlayableUnit_some_gt text
      { st with index := skipWhitespaceFrom text st.index } u hsome
    have hDi : ({ st with index := skipWhitespaceFrom text st.index } : MmlState).index =
      skipWhitespaceFrom text st.index := rfl
    rw [hDi] at hD
    set punit := (parsePlayableUnit text
      { st with index := skipWhitespaceFrom text st.index }).2 with hpu
    have hE := tieGo_index_ge text ({ st with index := punit }) u.duration
    have hEi : ({ st with index := punit } : MmlState).index = punit := rfl
    rw [hEi] at hE
    have hpos := parsePlayableUnit_duration_pos text
      { st with index := skipWhitespaceFrom text st.index } u hsome
    have htot := tieGo_total_ge text ({ st with index := punit }) u.duration
    have htotpos : 0 < (tieGo text ({ st with index := punit }) u.duration).2 := by
      linarith
    have hbeat := (tieGo_beat_volume text ({ st with index := punit }) u.duration).1
    set st2 := (tieGo text ({ st with index := punit }) u.duration).1 with hst2
    set total := (tieGo text ({ st with index := punit }) u.duration).2 with htotal
    have hbeat2 : ({ st2 with beat := st.beat + total } : MmlState).beat =
      st.beat + total := rfl
    have hidx2 : ({ st2 with beat := st.beat + total } : MmlState).index = st2.index := rfl
    have hmeas : text.length - ({ st2 with beat := st.beat + total } : MmlState).index ≤ n := by
      rw [hidx2]; omega
    by_cases hnote : u.isNote = true
    · rw [if_pos hnote]
      refine ih text _ (events ++ [⟨u.midi, st.beat, total, volumeToVelocity st.volume⟩])
        tcs hmeas ?_ ?_ ?_
      · intro e he
        rcases List.mem_append.mp he with he | he
        · exact hdur e he
        · simp only [List.mem_singleton] at he
          subst he
          exact htotpos
      · intro e he
        rw [hbeat2]
        rcases List.mem_append.mp he with he | he
        · have := hle e he
          linarith
        · simp only [List.mem_singleton] at he
          subst he
          simp only
          linarith
      · rw [List.chain'_append]
        refine ⟨hch, List.chain'_singleton _, ?_⟩
        intro x hx y hy
        simp only [List.head?_cons, Option.mem_def, Option.some.injEq] at hy
        subst hy
        simp only
        exact hle x (List.mem_of_mem_getLast? hx)
    · rw [if_neg hnote]
      refine ih text _ events tcs hmeas hdur ?_ hch
      intro e he
      rw [hbeat2]
      have := hle e he
      linarith

/-- JS `parseMml(mmlText)`: full decode of one token string. Returns the
note events, tempo changes and total beat length. Definable by
well-founded recursion on the cursor, which witnesses that the JS loop
terminates on every finite input. -/
def parseMml (mmlText : String) : List NoteEvent × List TempoChange × Rat :=
  let text := mmlText.trim.data
  let r := parseGo text ⟨0, 0, 4, 4, 0, 12, 120⟩ [] []
  (r.2.1, r.2.2, r.1.beat)

/-- CLAIM C10: `parseMml` terminates on every finite input string without
raising an error (it is a total Lean function, its loops defined by
well-founded recursion on the strictly advancing cursor; no branch of the
JS original throws), every note event it emits has `durationBeats > 0`,
and emitted `startBeat`s are non-decreasing in emission order. -/
theorem parseMml_total_and_ordered (s : String) :
    (∀ e ∈ (parseMml s).1, 0 < e.durationBeats) ∧
    List.Chain' (fun a b => a.startBeat ≤ b.startBeat) (parseMml s).1 := by
  have h := parseGo_inv s.trim.data.length s.trim.data ⟨0, 0, 4, 4, 0, 12, 120⟩ [] []
    (by simp) (by simp) (by simp) (by simp)
  exact ⟨h.1, h.2.2⟩

end ResultToMid

namespace MidToChord

/-! ### Duration factorization and run encoding (`buildDurationChoices`,
`splitDuration`, `encodeRuns`) -/

/-- Decimal digit character of a single digit value (the digits JS
`String(n)` produces). -/
def digitChar (d : Nat) : Char :=
  if d = 0 then '0' else if d = 1 then '1' else if d = 2 then '2' else if d = 3 then '3'
  else if d = 4 then '4' else if d = 5 then '5' else if d = 6 then '6' else if d = 7 then '7'
  else if d = 8 then '8' else '9'

/-- Decimal rendering of a natural number (JS `String(n)`), built from
`Nat.digits` so the digit-parse round trip can be proved. -/
def natToDecimalString (n : Nat) : String :=
  if n = 0 then "0"
  else ⟨(Nat.digits 10 n).reverse.map digitChar⟩

/-- Decimal rendering of an integer (JS `String(i)` for integral numbers). -/
def intToDecimalString (i : Int) : String :=
  if i < 0 then "-" ++ natToDecimalString i.natAbs else natToDecimalString i.toNat

/-- Entry of the duration table of `buildDurationChoices`:
a step count and the duration suffix that renders it. -/
structure DurationChoice where
  steps : Nat
  suffix : String
deriving DecidableEq, Repr

/-- JS `Map.set` on the `bySteps` table keyed by `steps`: replace in place,
else append (insertion order preserved). -/
def bySet (m : List DurationChoice) (c : DurationChoice) : List DurationChoice :=
  if m.any (fun x => x.steps = c.steps) then
    m.map (fun x => if x.steps = c.steps then c else x)
  else m ++ [c]

/-- Conditional `bySteps.set` of `buildDurationChoices`: insert when absent
or when the new suffix is strictly shorter. -/
def byUpdate (m : List DurationChoice) (c : DurationChoice) : List DurationChoice :=
  match m.find? (fun x => x.steps = c.steps) with
  | some current => if c.suffix.length < current.suffix.length then bySet m c else m
  | none => bySet m c

/-- Body of the denominator loop of `buildDurationChoices`. The JS
`Number.isInteger(baseLength / denominator)` test is the divisibility
test; the dotted variant requires `steps + steps / 2` integral, i.e. an
even step count. -/
def durationChoiceStep (baseLength : Nat) (m : List DurationChoice)
    (denominator : Nat) : List DurationChoice :=
  if denominator ∣ baseLength ∧ 1 ≤ baseLength / denominator then
    let steps := baseLength / denominator
    let suffix := if denominator = baseLength then "" else natToDecimalString denominator
    let m1 := byUpdate m ⟨steps, suffix⟩
    if 2 ∣ steps then
      byUpdate m1 ⟨steps + steps / 2, natToDecimalString denominator ++ "."⟩
    else m1
  else m

/-- JS `buildDurationChoices(baseLength)`: duration table sorted by step
count descending (step keys are unique, so the JS sort is deterministic). -/
def buildDurationChoices (baseLength : Nat) : List DurationChoice :=
  let m := [1, 2, 4, 8, 16, 32, 64].foldl (durationChoiceStep baseLength) []
  let m2 := if m.any (fun x => x.steps = 1) then m else bySet m ⟨1, ""⟩
  List.insertionSort (fun a b => b.steps ≤ a.steps) m2

/-- Loop of JS `splitDuration(steps, choices)`. The JS `while` terminates
because every usable choice has `steps ≥ 1`; the fuel argument (initially
`steps`) bounds the iteration count for such tables. -/
def splitDurationGo (choices : List DurationChoice) : Nat → Nat → List DurationChoice
  | 0, _ => []
  | _, 0 => []
  | fuel + 1, remaining + 1 =>
    let choice := (choices.find? (fun c => c.steps ≤ remaining + 1)).getD ⟨1, ""⟩
    choice :: splitDurationGo choices fuel (remaining + 1 - choice.steps)

/-- JS `splitDuration(steps, choices)`: greedy factorization of a run
length into table entries. -/
def splitDuration (steps : Nat) (choices : List DurationChoice) : List DurationChoice :=
  splitDurationGo choices steps steps

/-- JS `NOTE_NAMES`. -/
def NOTE_NAMES : List String :=
  ["c", "c+", "d", "d+", "e", "f", "f+", "g", "g+", "a", "a+", "b"]

/-- JS `midiToPitchInfo(midiNumber)`: note name and octave. `Int.tmod`
models the JS `%` (remainder with the sign of the dividend); `Int.fdiv`
models `Math.floor(midiNumber / 12)`. -/
def midiToPitchInfo (midiNumber : Int) : String × Int :=
  let pitchClass := Int.tmod (Int.tmod midiNumber 12 + 12) 12
  (NOTE_NAMES.getD pitchClass.toNat "", Int.fdiv midiNumber 12 - 1)

/-- Octave-shift prefix of a pitched token (the `>`/`<` while loops of
`encodeRuns`, which move `currentOctave` to the target octave). -/
def shiftChars (current target : Int) : String :=
  if current < target then ⟨List.replicate (target - current).toNat '>'⟩
  else ⟨List.replicate (current - target).toNat '<'⟩

/-- Options record of `encodeRuns`. -/
structure EncodeOptions where
  tempo : Int
  volume : Int
  includeTempo : Bool
  baseLength : Nat
deriving Repr

/-- Encoded candidate (`{text, tokens, tokenSteps}`). -/
structure EncodedResult where
  text : String
  tokens : List String
  tokenSteps : List Nat
deriving DecidableEq, Repr

/-- Run-emission loop of `encodeRuns`, producing (token, steps) pairs and
threading the octave cursor. A zero-length run yields no duration parts;
that case is unreachable for the positive-length runs the encoder is fed. -/
def encodeRunsGo (choices : List DurationChoice) :
    List Run → Int → List (String × Nat) → List (String × Nat)
  | [], _, acc => acc
  | run :: rest, currentOctave, acc =>
    match run.value with
    | none =>
      encodeRunsGo choices rest currentOctave
        (acc ++ (splitDuration run.length choices).map
          (fun part => ("r" ++ part.suffix, part.steps)))
    | some p =>
      let info := midiToPitchInfo p
      match splitDuration run.length choices with
      | [] => encodeRunsGo choices rest info.2 acc
      | firstPart :: tieParts =>
        encodeRunsGo choices rest info.2
          (acc ++ [(shiftChars currentOctave info.2 ++ info.1 ++ firstPart.suffix,
              firstPart.steps)] ++
            tieParts.map (fun part => ("&" ++ info.1 ++ part.suffix, part.steps)))

/-- Starting octave cursor of `encodeRuns` (octave of the first pitched
run, default 4, clamped to 0..9). -/
def encodeStartOctave (runs : List Run) : Int :=
  clampZ (match runs.find? (fun run => run.value ≠ none) with
    | some run =>
      match run.value with
      | some p => (midiToPitchInfo p).2
      | none => 4
    | none => 4) 0 9

/-- JS `encodeRuns(runs, options)`: header directives followed by the
per-run tokens; `text` is the concatenation of all tokens. -/
def encodeRuns (runs : List Run) (options : EncodeOptions) : EncodedResult :=
  let headerPairs : List (String × Nat) :=
    (if options.includeTempo then [("t" ++ intToDecimalString options.tempo, 0)] else []) ++
    [("v" ++ intToDecimalString options.volume, 0),
     ("o" ++ intToDecimalString (encodeStartOctave runs), 0),
     ("l" ++ natToDecimalString options.baseLength, 0)]
  let pairs := encodeRunsGo (buildDurationChoices options.baseLength) runs
    (encodeStartOctave runs) headerPairs
  { text := joinTokens (pairs.map Prod.fst),
    tokens := pairs.map Prod.fst,
    tokenSteps := pairs.map Prod.snd }

/-- Beats the decoder assigns to one emitted duration suffix, parsed with
`readDuration` under the emitted `l<baseLength>` default (no default
dots). -/
def suffixBeats (suffix : String) (baseLength : Nat) : Rat :=
  (ResultToMid.readDuration suffix.data 0 baseLength 0).1

theorem digitChar_isDigit (d : Nat) : (digitChar d).isDigit = true := by
  unfold digitChar
  split_ifs <;> decide

theorem digitChar_toNat (d : Nat) (hd : d < 10) : (digitChar d).toNat - 48 = d := by
  interval_cases d <;> decide

theorem takeWhile_all_append (p : Char → Bool) (l r : List Char)
    (hl : ∀ c ∈ l, p c = true) (hr : ∀ c, r.head? = some c → p c = false) :
    (l ++ r).takeWhile p = l := by
  induction l with
  | nil =>
    cases r with
    | nil => simp
    | cons c rest => simp [List.takeWhile_cons, hr c rfl]
  | cons c rest ih =>
    simp [List.takeWhile_cons, hl c (List.mem_cons_self c rest),
      ih (fun x hx => hl x (List.mem_cons_of_mem c hx))]

theorem foldl_digitChars (L : List Nat) (hL : ∀ x ∈ L, x < 10) :
    ∀ a : Nat, (L.reverse.map digitChar).foldl (fun acc c => 10 * acc + (c.toNat - 48)) a =
      a * 10 ^ L.length + Nat.ofDigits 10 L := by
  induction L with
  | nil => intro a; simp
  | cons d T ih =>
    intro a
    have hd : d < 10 := hL d (List.mem_cons_self d T)
    have hT : ∀ x ∈ T, x < 10 := fun x hx => hL x (List.mem_cons_of_mem d hx)
    rw [List.reverse_cons, List.map_append, List.foldl_append, ih hT a]
    simp only [List.map_cons, List.map_nil, List.foldl_cons, List.foldl_nil,
      digitChar_toNat d hd, Nat.ofDigits_cons, List.length_cons]
    ring

theorem natToDecimalString_all_digits (n : Nat) :
    ∀ c ∈ (natToDecimalString n).data, c.isDigit = true := by
  intro c hc
  rw [natToDecimalString] at hc
  by_cases hn : n = 0
  · simp only [if_pos hn] at hc
    have hc0 : c = '0' := by
      simpa using hc
    subst hc0
    decide
  · simp only [if_neg hn] at hc
    change c ∈ (Nat.digits 10 n).reverse.map digitChar at hc
    rw [List.mem_map] at hc
    obtain ⟨d, _, rfl⟩ := hc
    exact digitChar_isDigit d

theorem natToDecimalString_ne_nil (n : Nat) : (natToDecimalString n).data ≠ [] := by
  rw [natToDecimalString]
  by_cases hn : n = 0
  · simp [hn]
  · simp only [if_neg hn]
    change (Nat.digits 10 n).reverse.map digitChar ≠ []
    simp [Nat.digits_ne_nil_iff_ne_zero.mpr hn]

theorem readIntegerFrom_decimal (d : Nat) (hd : 1 ≤ d) (rest : List Char)
    (hrest : ∀ c, rest.head? = some c → c.isDigit = false) :
    ResultToMid.readIntegerFrom ((natToDecimalString d).data ++ rest) 0 =
      (some d, (natToDecimalString d).data.length) := by
  rw [ResultToMid.readIntegerFrom]
  rw [List.drop_zero]
  rw [takeWhile_all_append Char.isDigit _ rest (natToDecimalString_all_digits d) hrest]
  rw [if_neg (natToDecimalString_ne_nil d)]
  have hdig : (natToDecimalString d).data = (Nat.digits 10 d).reverse.map digitChar := by
    rw [natToDecimalString, if_neg (by omega : ¬d = 0)]
  rw [hdig]
  have := foldl_digitChars (Nat.digits 10 d)
    (fun x hx => Nat.digits_lt_base (by norm_num) hx) 0
  rw [this, Nat.ofDigits_digits]
  simp

theorem suffixBeats_empty (b : Nat) :
    suffixBeats "" b = ResultToMid.durationFromLength b 0 := by
  rw [suffixBeats, ResultToMid.readDuration]
  have h1 : ResultToMid.readIntegerFrom ("".data) 0 = (none, 0) := by
    rw [ResultToMid.readIntegerFrom]
    simp
  rw [h1]
  simp [ResultToMid.countDotsFrom]

theorem suffixBeats_decimal (d b : Nat) (hd : 1 ≤ d) :
    suffixBeats (natToDecimalString d) b = ResultToMid.durationFromLength d 0 := by
  rw [suffixBeats, ResultToMid.readDuration]
  have heq : (natToDecimalString d).data = (natToDecimalString d).data ++ [] := by simp
  rw [heq, readIntegerFrom_decimal d hd [] (by intro c hc; simp at hc)]
  have h2 : ResultToMid.countDotsFrom ((natToDecimalString d).data ++ [])
      (natToDecimalString d).data.length = (0, (natToDecimalString d).data.length) := by
    rw [ResultToMid.countDotsFrom]
    simp
  rw [h2]
  dsimp only
  rw [if_pos (show 0 < d by omega)]

theorem suffixBeats_dotted (d b : Nat) (hd : 1 ≤ d) :
    suffixBeats (natToDecimalString d ++ ".") b = ResultToMid.durationFromLength d 1 := by
  rw [suffixBeats]
  have hdata : (natToDecimalString d ++ ".").data = (natToDecimalString d).data ++ ['.'] := by
    simp [String.data_append]
  rw [hdata, ResultToMid.readDuration]
  rw [readIntegerFrom_decimal d hd ['.'] (by intro c hc; simp at hc; subst hc; decide)]
  have h2 : ResultToMid.countDotsFrom ((natToDecimalString d).data ++ ['.'])
      (natToDecimalString d).data.length = (1, (natToDecimalString d).data.length + 1) := by
    rw [ResultToMid.countDotsFrom]
    rw [List.drop_left]
    simp
  rw [h2]
  dsimp only
  rw [if_pos (show 0 < d by omega)]

theorem durationFromLength_zero_dots (d : Nat) (hd : 1 ≤ d) :
    ResultToMid.durationFromLength d 0 = 4 / (d : Rat) := by
  rw [ResultToMid.durationFromLength]
  rw [if_pos (show 0 < d by omega)]
  norm_num [ResultToMid.dotFactorGo]

theorem durationFromLength_one_dot (d : Nat) (hd : 1 ≤ d) :
    ResultToMid.durationFromLength d 1 = 4 / (d : Rat) * (3 / 2) := by
  rw [ResultToMid.durationFromLength]
  rw [if_pos (show 0 < d by omega)]
  norm_num [ResultToMid.dotFactorGo]

/-- Invariant of every duration-table entry: its step count is positive and
its suffix decodes (via `readDuration` with default length `b`) to exactly
`steps` steps, i.e. `4 * steps / b` beats. -/
def ChoiceInv (b : Nat) (c : DurationChoice) : Prop :=
  1 ≤ c.steps ∧ suffixBeats c.suffix b = 4 * (c.steps : Rat) / (b : Rat)

theorem choiceInv_one (b : Nat) (hb : 1 ≤ b) : ChoiceInv b ⟨1, ""⟩ := by
  refine ⟨le_refl 1, ?_⟩
  rw [suffixBeats_empty, durationFromLength_zero_dots b hb]
  norm_num

theorem choiceInv_nondotted (b d : Nat) (hb : 1 ≤ b) (hd : 1 ≤ d)
    (hdvd : d ∣ b) (hs : 1 ≤ b / d) :
    ChoiceInv b ⟨b / d, if d = b then "" else natToDecimalString d⟩ := by
  refine ⟨hs, ?_⟩
  obtain ⟨k, hk⟩ := hdvd
  have hkd : b / d = k := by
    rw [hk, Nat.mul_div_cancel_left k (by omega : 0 < d)]
  have hk1 : 1 ≤ k := by omega
  by_cases hb' : d = b
  · simp only [if_pos hb']
    rw [suffixBeats_empty, durationFromLength_zero_dots b hb]
    have : b / d = 1 := by rw [hb']; exact Nat.div_self (by omega)
    rw [this]
    norm_num
  · simp only [if_neg hb']
    rw [suffixBeats_decimal d b hd, durationFromLength_zero_dots d hd, hkd, hk]
    have hdq : ((d : Rat)) ≠ 0 := by positivity
    have hkq : ((k : Rat)) ≠ 0 := by positivity
    push_cast
    field_simp
    ring

theorem choiceInv_dotted (b d : Nat) (hb : 1 ≤ b) (hd : 1 ≤ d)
    (hdvd : d ∣ b) (hs : 1 ≤ b / d) (heven : 2 ∣ b / d) :
    ChoiceInv b ⟨b / d + (b / d) / 2, natToDecimalString d ++ "."⟩ := by
  obtain ⟨m, hm⟩ := heven
  have hm1 : 1 ≤ m := by omega
  have hsteps : b / d + (b / d) / 2 = 3 * m := by omega
  refine ⟨by show 1 ≤ b / d + (b / d) / 2; omega, ?_⟩
  rw [suffixBeats_dotted d b hd, durationFromLength_one_dot d hd, hsteps]
  obtain ⟨k, hk⟩ := hdvd
  have hkd : b / d = k := by
    rw [hk, Nat.mul_div_cancel_left k (by omega : 0 < d)]
  have hkm : k = 2 * m := by omega
  have hbk : b = d * (2 * m) := by rw [hk, hkm]
  rw [hbk]
  have hdq : ((d : Rat)) ≠ 0 := by positivity
  have hmq : ((m : Rat)) ≠ 0 := by positivity
  push_cast
  field_simp
  ring

theorem mem_bySet (m : List DurationChoice) (c x : DurationChoice)
    (hx : x ∈ bySet m c) : x ∈ m ∨ x = c := by
  rw [bySet] at hx
  split at hx
  · rw [List.mem_map] at hx
    obtain ⟨y, hy, hxy⟩ := hx
    by_cases h : y.steps = c.steps
    · rw [if_pos h] at hxy; right; exact hxy.symm
    · rw [if_neg h] at hxy; left; rw [← hxy]; exact hy
  · rw [List.mem_append] at hx
    rcases hx with hx | hx
    · left; exact hx
    · right; simpa using hx

theorem mem_byUpdate (m : List DurationChoice) (c x : DurationChoice)
    (hx : x ∈ byUpdate m c) : x ∈ m ∨ x = c := by
  rw [byUpdate] at hx
  split at hx
  · split at hx
    · exact mem_bySet m c x hx
    · left; exact hx
  · exact mem_bySet m c x hx

theorem durationChoiceStep_inv (b : Nat) (hb : 1 ≤ b) (m : List DurationChoice)
    (d : Nat) (hd : 1 ≤ d) (hm : ∀ x ∈ m, ChoiceInv b x) :
    ∀ x ∈ durationChoiceStep b m d, ChoiceInv b x := by
  intro x hx
  rw [durationChoiceStep] at hx
  by_cases h1 : d ∣ b ∧ 1 ≤ b / d
  · rw [if_pos h1] at hx
    by_cases h2 : 2 ∣ b / d
    · simp only [if_pos h2] at hx
      rcases mem_byUpdate _ _ _ hx with hx | hx
      · rcases mem_byUpdate _ _ _ hx with hx | hx
        · exact hm x hx
        · rw [hx]; exact choiceInv_nondotted b d hb hd h1.1 h1.2
      · rw [hx]; exact choiceInv_dotted b d hb hd h1.1 h1.2 h2
    · simp only [if_neg h2] at hx
      rcases mem_byUpdate _ _ _ hx with hx | hx
      · exact hm x hx
      · rw [hx]; exact choiceInv_nondotted b d hb hd h1.1 h1.2
  · rw [if_neg h1] at hx
    exact hm x hx

theorem foldl_durationChoiceStep_inv (b : Nat) (hb : 1 ≤ b) :
    ∀ (l : List Nat), (∀ d ∈ l, 1 ≤ d) →
    ∀ (m : List DurationChoice), (∀ x ∈ m, ChoiceInv b x) →
    ∀ x ∈ l.foldl (durationChoiceStep b) m, ChoiceInv b x := by
  intro l
  induction l with
  | nil => intro _ m hm x hx; exact hm x (by simpa using hx)
  | cons d rest ih =>
    intro hl m hm x hx
    rw [List.foldl_cons] at hx
    exact ih (fun y hy => hl y (List.mem_cons_of_mem d hy)) _
      (durationChoiceStep_inv b hb m d (hl d (List.mem_cons_self d rest)) hm) x hx

theorem buildDurationChoices_inv (b : Nat) (hb : 1 ≤ b) :
    ∀ c ∈ buildDurationChoices b, ChoiceInv b c := by
  intro c hc
  rw [buildDurationChoices] at hc
  have hperm := List.perm_insertionSort
    (fun a b : DurationChoice => b.steps ≤ a.steps)
  have hc2 := (hperm _).mem_iff.mp hc
  have hfold : ∀ x ∈ [1, 2, 4, 8, 16, 32, 64].foldl (durationChoiceStep b) [],
      ChoiceInv b x :=
    foldl_durationChoiceStep_inv b hb [1, 2, 4, 8, 16, 32, 64] (by decide) [] (by simp)
  by_cases hany : ([1, 2, 4, 8, 16, 32, 64].foldl (durationChoiceStep b) []).any
      (fun x => x.steps = 1)
  · rw [if_pos hany] at hc2
    exact hfold c hc2
  · rw [if_neg hany] at hc2
    rcases mem_bySet _ _ _ hc2 with hc2 | hc2
    · exact hfold c hc2
    · rw [hc2]; exact choiceInv_one b hb

theorem splitDurationGo_spec (choices : List DurationChoice)
    (hc : ∀ c ∈ choices, 1 ≤ c.steps) :
    ∀ fuel remaining, remaining ≤ fuel →
    ((splitDurationGo choices fuel remaining).map DurationChoice.steps).sum = remaining ∧
    (∀ part ∈ splitDurationGo choices fuel remaining, part ∈ choices ∨ part = ⟨1, ""⟩) := by
  intro fuel
  induction fuel with
  | zero =>
    intro remaining h
    interval_cases remaining
    simp [splitDurationGo]
  | succ fuel ih =>
    intro remaining h
    cases remaining with
    | zero => simp [splitDurationGo]
    | succ r =>
      have hmem : ((choices.find? (fun c => c.steps ≤ r + 1)).getD ⟨1, ""⟩) ∈ choices ∨
          ((choices.find? (fun c => c.steps ≤ r + 1)).getD ⟨1, ""⟩) = ⟨1, ""⟩ := by
        rcases hfind : choices.find? (fun c => c.steps ≤ r + 1) with _ | c
        · right; rw [hfind]; rfl
        · left
          rw [hfind, Option.getD_some]
          exact List.mem_of_find?_eq_some hfind
      have hle : ((choices.find? (fun c => c.steps ≤ r + 1)).getD ⟨1, ""⟩).steps ≤ r + 1 := by
        rcases hfind : choices.find? (fun c => c.steps ≤ r + 1) with _ | c
        · rw [hfind]
          show (1 : Nat) ≤ r + 1
          omega
        · rw [hfind, Option.getD_some]
          have := List.find?_some hfind
          simpa using this
      have hpos : 1 ≤ ((choices.find? (fun c => c.steps ≤ r + 1)).getD ⟨1, ""⟩).steps := by
        rcases hmem with hm | hm
        · exact hc _ hm
        · rw [hm]
      obtain ⟨ihsum, ihmem⟩ :=
        ih (r + 1 - ((choices.find? (fun c => c.steps ≤ r + 1)).getD ⟨1, ""⟩).steps)
          (by omega)
      have hunfold : splitDurationGo choices (fuel + 1) (r + 1) =
          ((choices.find? (fun c => c.steps ≤ r + 1)).getD ⟨1, ""⟩) ::
            splitDurationGo choices fuel
              (r + 1 - ((choices.find? (fun c => c.steps ≤ r + 1)).getD ⟨1, ""⟩).steps) := rfl
      constructor
      · rw [hunfold, List.map_cons, List.sum_cons, ihsum]
        omega
      · intro part hpart
        rw [hunfold, List.mem_cons] at hpart
        rcases hpart with hp | hp
        · subst hp; exact hmem
        · exact ihmem part hp

theorem splitDuration_beats (b n : Nat) (hb : 1 ≤ b) :
    ((splitDuration n (buildDurationChoices b)).map
      (fun p => suffixBeats p.suffix b)).sum = 4 * (n : Rat) / b := by
  have hc : ∀ c ∈ buildDurationChoices b, 1 ≤ c.steps :=
    fun c hcm => (buildDurationChoices_inv b hb c hcm).1
  obtain ⟨hsum0, hmem0⟩ := splitDurationGo_spec (buildDurationChoices b) hc n n (le_refl n)
  have hsum : ((splitDuration n (buildDurationChoices b)).map DurationChoice.steps).sum = n :=
    hsum0
  have hmem : ∀ part ∈ splitDuration n (buildDurationChoices b),
      part ∈ buildDurationChoices b ∨ part = ⟨1, ""⟩ := hmem0
  have hmap : (splitDuration n (buildDurationChoices b)).map
      (fun p => suffixBeats p.suffix b) =
      (splitDuration n (buildDurationChoices b)).map
        (fun p => ((p.steps : Rat)) * (4 / b)) := by
    apply List.map_congr_left
    intro p hp
    have hinv : ChoiceInv b p := by
      rcases hmem p hp with hp2 | hp2
      · exact buildDurationChoices_inv b hb p hp2
      · rw [hp2]; exact choiceInv_one b hb
    rw [hinv.2]
    ring
  rw [hmap]
  have hfactor : ∀ (l : List DurationChoice),
      (l.map (fun p => ((p.steps : Rat)) * (4 / b))).sum =
      ((l.map DurationChoice.steps).sum : Rat) * (4 / b) := by
    intro l
    induction l with
    | nil => simp
    | cons a t iht =>
      simp only [List.map_cons, List.sum_cons, iht]
      push_cast
      ring
  rw [hfactor, hsum]
  ring

theorem map_snd_pair (l : List DurationChoice) (f : DurationChoice → String) :
    ((l.map (fun part => (f part, part.steps))).map Prod.snd) =
      l.map DurationChoice.steps := by
  induction l with
  | nil => rfl
  | cons a t iht => simp [iht]

theorem encodeRunsGo_snd_sum (choices : List DurationChoice)
    (hc : ∀ c ∈ choices, 1 ≤ c.steps) :
    ∀ (runs : List Run) (oct : Int) (acc : List (String × Nat)),
    (∀ r ∈ runs, 1 ≤ r.length) →
    ((encodeRunsGo choices runs oct acc).map Prod.snd).sum =
      (acc.map Prod.snd).sum + (runs.map Run.length).sum := by
  intro runs
  induction runs with
  | nil => intro oct acc _; simp [encodeRunsGo]
  | cons run rest ih =>
    intro oct acc hr
    have hrun : 1 ≤ run.length := hr run (List.mem_cons_self run rest)
    have hrest : ∀ x ∈ rest, 1 ≤ x.length :=
      fun x hx => hr x (List.mem_cons_of_mem run hx)
    obtain ⟨hsum0, _⟩ := splitDurationGo_spec choices hc run.length run.length (le_refl _)
    have hsum : ((splitDuration run.length choices).map DurationChoice.steps).sum =
      run.length := hsum0
    rcases hv : run.value with _ | p
    · rw [show encodeRunsGo choices (run :: rest) oct acc =
        encodeRunsGo choices rest oct
          (acc ++ (splitDuration run.length choices).map
            (fun part => ("r" ++ part.suffix, part.steps))) by
        rw [encodeRunsGo, hv]]
      rw [ih oct _ hrest]
      rw [List.map_append, List.sum_append]
      rw [map_snd_pair (splitDuration run.length choices) (fun part => "r" ++ part.suffix)]
      rw [hsum]
      simp only [List.map_cons, List.sum_cons]
      omega
    · rcases hparts : splitDuration run.length choices with _ | ⟨firstPart, tieParts⟩
      · exfalso
        rw [hparts] at hsum
        simp at hsum
        omega
      · rw [show encodeRunsGo choices (run :: rest) oct acc =
          encodeRunsGo choices rest (midiToPitchInfo p).2
            (acc ++ [(shiftChars oct (midiToPitchInfo p).2 ++ (midiToPitchInfo p).1 ++
                firstPart.suffix, firstPart.steps)] ++
              tieParts.map (fun part => ("&" ++ (midiToPitchInfo p).1 ++ part.suffix,
                part.steps))) by
          rw [encodeRunsGo, hv, hparts]]
        rw [ih _ _ hrest]
        rw [hparts] at hsum
        simp only [List.map_cons, List.sum_cons] at hsum
        rw [List.map_append, List.sum_append, List.map_append, List.sum_append]
        rw [map_snd_pair tieParts (fun part => "&" ++ (midiToPitchInfo p).1 ++ part.suffix)]
        simp only [List.map_cons, List.map_nil, List.sum_cons, List.sum_nil]
        omega

/-- CLAIM C3: for every run list and base length, decoding the duration
tokens emitted by `encodeRuns` reproduces every run length exactly: the
duration parts `splitDuration` factors a run into parse (via the decoder
grammar `readDuration` under the emitted `l<baseLength>` default) to beats
that convert back to exactly the original step count, and the per-token
step counts recorded by `encodeRuns` sum to the total step count of the
runs. Duration factorization is lossless given the same base length. -/
theorem encodeRuns_duration_roundtrip (runs : List Run) (options : EncodeOptions)
    (hb : 1 ≤ options.baseLength) (hruns : ∀ r ∈ runs, 1 ≤ r.length) :
    (∀ r ∈ runs,
      ((splitDuration r.length (buildDurationChoices options.baseLength)).map
          (fun part => suffixBeats part.suffix options.baseLength)).sum *
        (options.baseLength : Rat) / 4 = (r.length : Rat)) ∧
    (encodeRuns runs options).tokenSteps.sum = (runs.map Run.length).sum := by
  constructor
  · intro r hr
    rw [splitDuration_beats options.baseLength r.length hb]
    have hbq : ((options.baseLength : Rat)) ≠ 0 := by positivity
    field_simp
  · have hc : ∀ c ∈ buildDurationChoices options.baseLength, 1 ≤ c.steps :=
      fun c hcm => (buildDurationChoices_inv options.baseLength hb c hcm).1
    rw [encodeRuns]
    simp only
    rw [encodeRunsGo_snd_sum (buildDurationChoices options.baseLength) hc runs
      (encodeStartOctave runs) _ hruns]
    by_cases ht : options.includeTempo <;> simp [ht]

/-- Witness for C3: one seven-step pitched run at base length 8
(emitted as `c2.` plus tie `&c8`, decoding to 6 + 1 steps). -/
theorem encodeRuns_duration_roundtrip_witness :
    ((1 ≤ (⟨120, 12, true, 8⟩ : EncodeOptions).baseLength) ∧
     (∀ r ∈ [(⟨some 60, 0, 7, 7⟩ : Run)], 1 ≤ r.length)) ∧
    ((∀ r ∈ [(⟨some 60, 0, 7, 7⟩ : Run)],
      ((splitDuration r.length
          (buildDurationChoices (⟨120, 12, true, 8⟩ : EncodeOptions).baseLength)).map
          (fun part => suffixBeats part.suffix
            (⟨120, 12, true, 8⟩ : EncodeOptions).baseLength)).sum *
        (((⟨120, 12, true, 8⟩ : EncodeOptions).baseLength : Rat)) / 4 = (r.length : Rat)) ∧
    (encodeRuns [⟨some 60, 0, 7, 7⟩] ⟨120, 12, true, 8⟩).tokenSteps.sum =
      ([(⟨some 60, 0, 7, 7⟩ : Run)].map Run.length).sum) :=
  ⟨⟨by norm_num, by decide⟩,
    encodeRuns_duration_roundtrip [⟨some 60, 0, 7, 7⟩] ⟨120, 12, true, 8⟩
      (by norm_num) (by decide)⟩

end MidToChord

namespace ResultToMid

/-! ### Markdown score extraction (`splitMmlParts`,
`extractSegmentsFromMarkdown`) -/

/-- Error message thrown by `splitMmlParts` for a block with fewer than
three comma-separated parts. -/
def splitMmlPartsError : String :=
  "MML@ 內容格式錯誤，必須包含 3 個聲部（melody,chord1,chord2）。"

/-- Error message thrown when no parsable score content is found. -/
def noScoreError : String :=
  "找不到可解析的樂譜內容。請確認 Result.md 內有 MML@...; 或主音/和弦三段格式。"

/-- JS `splitMmlParts(raw)`: split a block body on commas into the three
voices; parts beyond the second are re-joined into chord2. -/
def splitMmlParts (raw : String) : Except String (String × String × String) :=
  if (raw.splitOn (",")).length < 3 then Except.error splitMmlPartsError
  else Except.ok (((raw.splitOn (",")).getD 0 "").trim,
    ((raw.splitOn (",")).getD 1 "").trim,
    (String.intercalate (",") ((raw.splitOn (",")).drop 2)).trim)

/-- JS `raw.replace(/\r?\n/g, "")`: drop every `\r\n` pair and every lone
`\n` (a lone `\r` is kept, as in the regex). -/
def stripNewlines : List Char → List Char
  | [] => []
  | '\r' :: '\n' :: rest => stripNewlines rest
  | '\n' :: rest => stripNewlines rest
  | c :: rest => c :: stripNewlines rest

/-- Split at the first `;`: `(content before, remainder after)`. Models the
lazy `([\s\S]*?);` of the `MML@` pattern. -/
def findSemi : List Char → Option (List Char × List Char)
  | [] => none
  | c :: rest =>
    if c = ';' then some ([], rest)
    else (findSemi rest).map (fun p => (c :: p.1, p.2))

theorem findSemi_length : ∀ (l : List Char) (p : List Char × List Char),
    findSemi l = some p → p.2.length < l.length := by
  intro l
  induction l with
  | nil => intro p h; simp [findSemi] at h
  | cons c rest ih =>
    intro p h
    rw [findSemi] at h
    by_cases hc : c = ';'
    · rw [if_pos hc] at h
      cases h
      simp
    · rw [if_neg hc] at h
      rcases hf : findSemi rest with _ | q
      · rw [hf] at h; simp at h
      · rw [hf] at h
        simp only [Option.map_some', Option.some.injEq] at h
        have := ih q hf
        subst h
        simp
        omega

/-- Fuelled scan loop of the global `MML@([\s\S]*?);` pattern. Every step
consumes one unit of fuel and strictly shortens the text, so fuel equal to
the text length never runs out. -/
def scanMmlBlocksF (ctx : List Char) : Nat → List Char → List (List Char × List Char)
  | 0, _ => []
  | _ + 1, [] => []
  | fuel + 1, c :: rest =>
    if ("MML@").data.isPrefixOf (c :: rest) then
      match findSemi ((c :: rest).drop 4) with
      | some p => (ctx.reverse, p.1) :: scanMmlBlocksF [] fuel p.2
      | none => []
    else scanMmlBlocksF (c :: ctx) fuel rest

/-- Scan of the global `MML@([\s\S]*?);` pattern: the list of
`(context, content)` pairs in match order, where `context` is the text
between the previous match end and this match start. -/
def scanMmlBlocks (ctx : List Char) (l : List Char) : List (List Char × List Char) :=
  scanMmlBlocksF ctx l.length l

/-- JS `parseInt` on a run of decimal digits. -/
def parseDigits (l : List Char) : Nat :=
  l.foldl (fun acc c => 10 * acc + (c.toNat - 48)) 0

theorem dropWhile_len_le (p : Char → Bool) :
    ∀ (l : List Char), (l.dropWhile p).length ≤ l.length := by
  intro l
  induction l with
  | nil => simp
  | cons c rest ih =>
    rw [List.dropWhile]
    by_cases hc : p c
    · rw [hc]
      simp
      omega
    · simp [hc]

/-- Fuelled scan loop of `/段長Ticks:\s*(\d+)/g`. Every step consumes one
unit of fuel and strictly shortens the text, so fuel equal to the text
length never runs out. -/
def scanTicksAllF : Nat → List Char → List Nat
  | 0, _ => []
  | _ + 1, [] => []
  | fuel + 1, c :: rest =>
    if ("段長Ticks:").data.isPrefixOf (c :: rest) then
      if (((c :: rest).drop ("段長Ticks:").data.length).dropWhile
          Char.isWhitespace).takeWhile Char.isDigit = [] then
        scanTicksAllF fuel rest
      else
        parseDigits ((((c :: rest).drop ("段長Ticks:").data.length).dropWhile
            Char.isWhitespace).takeWhile Char.isDigit) ::
          scanTicksAllF fuel ((((c :: rest).drop ("段長Ticks:").data.length).dropWhile
              Char.isWhitespace).drop
            (((((c :: rest).drop ("段長Ticks:").data.length).dropWhile
              Char.isWhitespace).takeWhile Char.isDigit)).length)
    else scanTicksAllF fuel rest

/-- All matches of `/段長Ticks:\s*(\d+)/g` over a context slice. -/
def scanTicksAll (l : List Char) : List Nat :=
  scanTicksAllF l.length l

/-- Metadata value of a `#META` pair (integer when the raw value is all
digits). -/
inductive MetaValue
  | int (n : Nat)
  | str (s : String)
deriving DecidableEq, Repr

/-- Backtracking of `\s+` before the `([^\r\n]+)` capture of the `#META`
line pattern: try the longest whitespace run first. -/
def metaCaptureAux (l : List Char) : Nat → Option (List Char)
  | 0 => none
  | k + 1 =>
    let cap := (l.drop (k + 1)).takeWhile (fun c => !(c = '\r' ∨ c = '\n'))
    if cap ≠ [] then some cap else metaCaptureAux l k

/-- Capture of `/^#META\s+([^\r\n]+)/` applied right after `#META`. -/
def metaCapture (l : List Char) : Option (List Char) :=
  metaCaptureAux l (l.takeWhile Char.isWhitespace).length

/-- Scan for the first `^#META` line (the JS `^` with the `m` flag matches
at the start and after any line terminator). -/
def findMetaLine : Bool → List Char → Option (List Char)
  | _, [] => none
  | atStart, c :: rest =>
    if atStart ∧ ("#META").data.isPrefixOf (c :: rest) then
      match metaCapture ((c :: rest).drop 5) with
      | some cap => some cap
      | none => findMetaLine false rest
    else findMetaLine (c = '\n' ∨ c = '\r') rest

/-- Word character of the `#META` pair pattern (`[a-zA-Z0-9_]`). -/
def isWordChar (c : Char) : Bool :=
  c.isAlpha ∨ c.isDigit ∨ c = '_'

/-- All matches of `/([a-zA-Z0-9_]+)\s*=\s*([^\s]+)/g` over the `#META`
line, with the JS integer coercion of all-digit values. -/
def scanPairs : List Char → List (String × MetaValue)
  | [] => []
  | c :: rest =>
    if hkey : ((c :: rest).takeWhile isWordChar) = [] then scanPairs rest
    else
      match h1 : ((c :: rest).drop
          ((c :: rest).takeWhile isWordChar).length).dropWhile Char.isWhitespace with
      | '=' :: afterEq =>
        if (afterEq.dropWhile Char.isWhitespace).takeWhile
            (fun c => !c.isWhitespace) = [] then
          scanPairs rest
        else
          (⟨(c :: rest).takeWhile isWordChar⟩,
            if ((afterEq.dropWhile Char.isWhitespace).takeWhile
                (fun c => !c.isWhitespace)).all Char.isDigit then
              MetaValue.int (parseDigits ((afterEq.dropWhile
                Char.isWhitespace).takeWhile (fun c => !c.isWhitespace)))
            else
              MetaValue.str ⟨(afterEq.dropWhile Char.isWhitespace).takeWhile
                (fun c => !c.isWhitespace)⟩) ::
          scanPairs ((afterEq.dropWhile Char.isWhitespace).drop
            ((afterEq.dropWhile Char.isWhitespace).takeWhile
              (fun c => !c.isWhitespace)).length)
      | _ => scanPairs rest
termination_by l => l.length
decreasing_by
  · simp
  · simp
  · have hk : 1 ≤ ((c :: rest).takeWhile isWordChar).length := by
      rcases h : (c :: rest).takeWhile isWordChar with _ | ⟨x, xs⟩
      · exact absurd h hkey
      · exact Nat.succ_le_succ (Nat.zero_le xs.length)
    have h1len : afterEq.length + 1 =
        (((c :: rest).drop ((c :: rest).takeWhile isWordChar).length).dropWhile
          Char.isWhitespace).length := by
      rw [h1]; rfl
    have h2 := dropWhile_len_le Char.isWhitespace
      ((c :: rest).drop ((c :: rest).takeWhile isWordChar).length)
    have h2b : ((c :: rest).drop
        ((c :: rest).takeWhile isWordChar).length).length =
        (c :: rest).length - ((c :: rest).takeWhile isWordChar).length := by
      rw [List.length_drop]
    have h3 := dropWhile_len_le Char.isWhitespace afterEq
    have h4 : (((afterEq.dropWhile Char.isWhitespace).drop
        ((afterEq.dropWhile Char.isWhitespace).takeWhile
          (fun c => !c.isWhitespace)).length)).length =
        (afterEq.dropWhile Char.isWhitespace).length -
        ((afterEq.dropWhile Char.isWhitespace).takeWhile
          (fun c => !c.isWhitespace)).length := by
      rw [List.length_drop]
    have h5 : (c :: rest).length = rest.length + 1 := rfl
    omega
  · simp

/-- JS `parseMetadata(markdown)`. -/
def parseMetadata (markdown : String) : List (String × MetaValue) :=
  match findMetaLine true markdown.data with
  | some cap => scanPairs cap
  | none => []

/-- Last-write-wins lookup of a `#META` key (JS object assignment order). -/
def metaLookupInt (metadata : List (String × MetaValue)) (key : String) : Option Nat :=
  match metadata.reverse.find? (fun p => p.1 = key) with
  | some (_, MetaValue.int n) => some n
  | _ => none

/-- One decoded segment (three voice strings plus the declared tick
length, when present). -/
structure MmlSegment where
  melody : String
  chord1 : String
  chord2 : String
  segmentTicks : Option Nat
deriving DecidableEq, Repr

/-- Per-block loop of `extractSegmentsFromMarkdown` over the scanned
`MML@` blocks: empty bodies are skipped, the first malformed body throws. -/
def extractSegmentsBuild : List (List Char × List Char) → Except String (List MmlSegment)
  | [] => Except.ok []
  | (ctx, content) :: rest =>
    if (String.mk (stripNewlines content)).trim = "" then extractSegmentsBuild rest
    else
      match splitMmlParts ((String.mk (stripNewlines content)).trim) with
      | Except.error e => Except.error e
      | Except.ok parts =>
        match extractSegmentsBuild rest with
        | Except.error e => Except.error e
        | Except.ok segs =>
          Except.ok
            ({ melody := parts.1
               chord1 := parts.2.1
               chord2 := parts.2.2
               segmentTicks :=
                 match (scanTicksAll ctx).getLast? with
                 | some t => if 0 < t then some t else none
                 | none => none } :: segs)

/-- Element of the legacy three-line block pattern. -/
inductive Pat
  | lit (s : List Char)
  | wsStar
  | digits1
  | crlf
  | lineCapture

/-- Longest-first backtracking over a quantifier that may consume up to
`k` characters (used for `\s*`). -/
def tryDrops (next : List Char → Option (List (List Char) × List Char))
    (s : List Char) : Nat → Option (List (List Char) × List Char)
  | 0 => next s
  | k + 1 =>
    match next (s.drop (k + 1)) with
    | some r => some r
    | none => tryDrops next s k

/-- Longest-first backtracking for the `([^\r\n]*)` capture groups. -/
def tryCaps (next : List Char → Option (List (List Char) × List Char))
    (s : List Char) : Nat → Option (List (List Char) × List Char)
  | 0 =>
    match next s with
    | some r => some (([] : List Char) :: r.1, r.2)
    | none => none
  | k + 1 =>
    match next (s.drop (k + 1)) with
    | some r => some (s.take (k + 1) :: r.1, r.2)
    | none => tryCaps next s k

/-- The `\r?\n` element: consume a newline, optionally preceded by a
carriage return. -/
def crlfDrop : List Char → Option (List Char)
  | [] => none
  | [c] => if c = '\n' then some [] else none
  | c :: d :: rest =>
    if c = '\n' then some (d :: rest)
    else if c = '\r' ∧ d = '\n' then some rest
    else none

theorem crlfDrop_length : ∀ (s t : List Char), crlfDrop s = some t →
    t.length ≤ s.length := by
  intro s t h
  match s with
  | [] => simp [crlfDrop] at h
  | [c] =>
    rw [crlfDrop] at h
    by_cases h1 : c = '\n'
    · rw [if_pos h1] at h
      cases h
      simp
    · rw [if_neg h1] at h
      exact absurd h (by simp)
  | c :: d :: rest =>
    rw [crlfDrop] at h
    by_cases h1 : c = '\n'
    · rw [if_pos h1] at h
      cases h
      simp
    · rw [if_neg h1] at h
      by_cases h2 : c = '\r' ∧ d = '\n'
      · rw [if_pos h2] at h
        cases h
        simp
        omega
      · rw [if_neg h2] at h
        exact absurd h (by simp)

/-- Backtracking matcher for the legacy block pattern (greedy quantifiers,
longest first, exactly as the JS regex engine tries them). Returns the
captures and the remaining text after the match. -/
def patMatch : List Pat → List Char → Option (List (List Char) × List Char)
  | [], s => some ([], s)
  | Pat.lit t :: ps, s =>
    if t.isPrefixOf s then patMatch ps (s.drop t.length) else none
  | Pat.digits1 :: ps, s =>
    if (s.takeWhile Char.isDigit) = [] then none
    else patMatch ps (s.drop (s.takeWhile Char.isDigit).length)
  | Pat.crlf :: ps, s =>
    match crlfDrop s with
    | some t => patMatch ps t
    | none => none
  | Pat.wsStar :: ps, s => tryDrops (patMatch ps) s (s.takeWhile Char.isWhitespace).length
  | Pat.lineCapture :: ps, s =>
    tryCaps (patMatch ps) s (s.takeWhile (fun c => !(c = '\r' ∨ c = '\n'))).length

/-- The legacy `主音Melody/和弦Chord1/和弦Chord2` block pattern. -/
def legacyBlockPat : List Pat :=
  [Pat.lit ("主音Melody:").data, Pat.wsStar, Pat.digits1, Pat.wsStar, Pat.crlf,
   Pat.lineCapture, Pat.wsStar, Pat.crlf,
   Pat.lit ("和弦Chord1:").data, Pat.wsStar, Pat.digits1, Pat.wsStar, Pat.crlf,
   Pat.lineCapture, Pat.wsStar, Pat.crlf,
   Pat.lit ("和弦Chord2:").data, Pat.wsStar, Pat.digits1, Pat.wsStar, Pat.crlf,
   Pat.lineCapture]

theorem tryDrops_length (next : List Char → Option (List (List Char) × List Char))
    (hnext : ∀ s r, next s = some r → r.2.length ≤ s.length) :
    ∀ (s : List Char) (k : Nat) (r : List (List Char) × List Char),
    tryDrops next s k = some r → r.2.length ≤ s.length := by
  intro s k
  induction k with
  | zero => intro r h; exact hnext s r h
  | succ k ih =>
    intro r h
    rw [tryDrops] at h
    rcases hn : next (s.drop (k + 1)) with _ | q
    · rw [hn] at h
      exact ih r h
    · rw [hn] at h
      cases h
      have := hnext _ r hn
      simp at this
      omega

theorem tryCaps_length (next : List Char → Option (List (List Char) × List Char))
    (hnext : ∀ s r, next s = some r → r.2.length ≤ s.length) :
    ∀ (s : List Char) (k : Nat) (r : List (List Char) × List Char),
    tryCaps next s k = some r → r.2.length ≤ s.length := by
  intro s k
  induction k with
  | zero =>
    intro r h
    rw [tryCaps] at h
    rcases hn : next s with _ | q
    · rw [hn] at h; exact absurd h (by simp)
    · rw [hn] at h
      cases h
      exact hnext s q hn
  | succ k ih =>
    intro r h
    rw [tryCaps] at h
    rcases hn : next (s.drop (k + 1)) with _ | q
    · rw [hn] at h
      exact ih r h
    · rw [hn] at h
      cases h
      have := hnext _ q hn
      simp at this
      show q.2.length ≤ s.length
      omega

theorem patMatch_length : ∀ (ps : List Pat) (s : List Char)
    (r : List (List Char) × List Char),
    patMatch ps s = some r → r.2.length ≤ s.length := by
  intro ps
  induction ps with
  | nil =>
    intro s r h
    rw [patMatch] at h
    cases h
    exact le_refl _
  | cons p rest ih =>
    intro s r h
    cases p with
    | lit t =>
      rw [patMatch] at h
      split at h
      · have := ih _ r h
        simp at this
        omega
      · exact absurd h (by simp)
    | digits1 =>
      rw [patMatch] at h
      split at h
      · exact absurd h (by simp)
      · have := ih _ r h
        simp at this
        omega
    | crlf =>
      rw [patMatch] at h
      rcases hc : crlfDrop s with _ | t
      · rw [hc] at h
        exact absurd h (by simp)
      · rw [hc] at h
        have h1 := ih t r h
        have h2 := crlfDrop_length s t hc
        omega
    | wsStar =>
      rw [patMatch] at h
      exact tryDrops_length (patMatch rest) (fun s' r' h' => ih s' r' h') s _ r h
    | lineCapture =>
      rw [patMatch] at h
      exact tryCaps_length (patMatch rest) (fun s' r' h' => ih s' r' h') s _ r h

/-- Global scan of the legacy block pattern (JS `blockPattern.exec` loop). -/
def scanLegacy : List Char → List (String × String × String)
  | [] => []
  | c :: rest =>
    match hm : patMatch legacyBlockPat (c :: rest) with
    | some r =>
      match r.1 with
      | [m, c1, c2] =>
        (String.mk m, String.mk c1, String.mk c2) :: scanLegacy r.2
      | _ => scanLegacy rest
    | none => scanLegacy rest
termination_by l => l.length
decreasing_by
  · have hfirst : r.2.length < (c :: rest).length := by
      unfold legacyBlockPat at hm
      rw [patMatch] at hm
      by_cases hp : (("主音Melody:").data).isPrefixOf (c :: rest)
      · rw [if_pos hp] at hm
        have h6 := patMatch_length _ _ r hm
        rw [List.length_drop] at h6
        have h7 : 1 ≤ (("主音Melody:").data).length := by decide
        have h8 : (c :: rest).length = rest.length + 1 := rfl
        omega
      · rw [if_neg hp] at hm
        exact absurd hm (by simp)
    simpa using hfirst
  · simp
  · simp

/-- Segment-ticks injection for a single segment (`metadata.totalTicks`). -/
def applyTotalTicks (segs : List MmlSegment) (metadata : List (String × MetaValue))
    (checkExisting : Bool) : List MmlSegment :=
  match segs with
  | [s] =>
    if checkExisting && s.segmentTicks.isSome then [s]
    else
      match metaLookupInt metadata ("totalTicks") with
      | some t => if 0 < t then [{ s with segmentTicks := some t }] else [s]
      | none => [s]
  | _ => segs

/-- JS `extractSegmentsFromMarkdown(markdown)` (modelled with `Except`:
`Except.error` is the JS `throw`, which aborts the conversion before any
MIDI is built or written by `convertResultToMidi`). -/
def extractSegmentsFromMarkdown (markdown : String) :
    Except String (List MmlSegment × List (String × MetaValue)) :=
  match extractSegmentsBuild (scanMmlBlocks [] markdown.data) with
  | Except.error e => Except.error e
  | Except.ok segs =>
    if segs ≠ [] then
      Except.ok (applyTotalTicks segs (parseMetadata markdown) true,
        parseMetadata markdown)
    else
      if (scanLegacy markdown.data).map (fun p =>
          { melody := p.1.trim, chord1 := p.2.1.trim, chord2 := p.2.2.trim,
            segmentTicks := none : MmlSegment }) ≠ [] then
        Except.ok (applyTotalTicks ((scanLegacy markdown.data).map (fun p =>
          { melody := p.1.trim, chord1 := p.2.1.trim, chord2 := p.2.2.trim,
            segmentTicks := none : MmlSegment })) (parseMetadata markdown) false,
          parseMetadata markdown)
      else Except.error noScoreError

theorem splitMmlParts_error_eq (raw : String) (e : String)
    (h : splitMmlParts raw = Except.error e) : e = splitMmlPartsError := by
  rw [splitMmlParts] at h
  by_cases hl : (raw.splitOn (",")).length < 3
  · rw [if_pos hl] at h
    cases h
    rfl
  · rw [if_neg hl] at h
    exact Except.noConfusion h

theorem extractSegmentsBuild_malformed :
    ∀ (blocks : List (List Char × List Char)),
    (∃ b ∈ blocks, (String.mk (stripNewlines b.2)).trim ≠ "" ∧
      ((String.mk (stripNewlines b.2)).trim.splitOn (",")).length < 3) →
    extractSegmentsBuild blocks = Except.error splitMmlPartsError := by
  intro blocks
  induction blocks with
  | nil => intro h; simp at h
  | cons b rest ih =>
    intro h
    obtain ⟨x, hx, hne, hlt⟩ := h
    rcases b with ⟨ctx, content⟩
    rw [extractSegmentsBuild]
    rcases List.mem_cons.mp hx with hx1 | hx2
    · subst hx1
      rw [if_neg hne]
      have hsp : splitMmlParts ((String.mk (stripNewlines content)).trim) =
          Except.error splitMmlPartsError := by
        rw [splitMmlParts, if_pos hlt]
      rw [hsp]
    · have hrest := ih ⟨x, hx2, hne, hlt⟩
      by_cases hraw : (String.mk (stripNewlines content)).trim = ""
      · rw [if_pos hraw]
        exact hrest
      · rw [if_neg hraw]
        rcases hs : splitMmlParts ((String.mk (stripNewlines content)).trim)
          with e | parts
        · have he := splitMmlParts_error_eq _ _ hs
          subst he
          rfl
        · rw [hrest]

/-- C7 counterexample: the markdown text MML@;MML@a,b,c; contains an MML@
block (the first one, with empty content) whose content has fewer than
three comma-separated parts, yet decoding succeeds without raising the
malformed-score error, because blocks whose newline-stripped, trimmed
content is empty are skipped. -/
theorem extract_malformed_counterexample :
    (∃ b ∈ scanMmlBlocks [] ("MML@;MML@a,b,c;").data,
      ((String.mk (stripNewlines b.2)).trim.splitOn (",")).length < 3) ∧
    (extractSegmentsFromMarkdown ("MML@;MML@a,b,c;")).isOk = true := by
  with_unfolding_all decide

/-- C7 (amended): if the decoder's input score text contains an MML@ block
whose newline-stripped, trimmed content is non-empty and has fewer than
three comma-separated parts, then decoding fails with the malformed-score
error (so no MIDI output is produced); blocks with empty content are
skipped and never trigger the error. -/
theorem extract_malformed (markdown : String)
    (h : ∃ b ∈ scanMmlBlocks [] markdown.data,
      (String.mk (stripNewlines b.2)).trim ≠ "" ∧
      ((String.mk (stripNewlines b.2)).trim.splitOn (",")).length < 3) :
    extractSegmentsFromMarkdown markdown = Except.error splitMmlPartsError := by
  rw [extractSegmentsFromMarkdown, extractSegmentsBuild_malformed _ h]

/-- Witness for the amended C7 theorem at the concrete input MML@x;. -/
theorem extract_malformed_witness :
    (∃ b ∈ scanMmlBlocks [] ("MML@x;").data,
      (String.mk (stripNewlines b.2)).trim ≠ "" ∧
      ((String.mk (stripNewlines b.2)).trim.splitOn (",")).length < 3) ∧
    extractSegmentsFromMarkdown ("MML@x;") = Except.error splitMmlPartsError :=
  ⟨by with_unfolding_all decide,
    extract_malformed ("MML@x;") (by with_unfolding_all decide)⟩

end ResultToMid

namespace MidToChord

/-! ### Sequential tick-range splitter (`splitTickRanges` and helpers) -/

/-- JS `countActiveNotesAtTick(notes, tick)`: notes strictly spanning the
tick. -/
def countActiveNotesAtTick (notes : List Note) (tick : Rat) : Nat :=
  (notes.filter (fun n =>
    decide (n.ticks < tick) && decide (tick < n.ticks + n.durationTicks))).length

/-- JS `countBoundaryNotesAtTick(notes, tick)`: notes whose rounded start
or end lies within one tick. -/
def countBoundaryNotesAtTick (notes : List Note) (tick : Rat) : Nat :=
  (notes.filter (fun n =>
    decide (|(jsRound n.ticks : Rat) - tick| ≤ 1) ||
    decide (|(jsRound (n.ticks + n.durationTicks) : Rat) - tick| ≤ 1))).length

/-- JS `%` on numbers (remainder with the sign of the dividend, truncated
division). -/
def jsModQ (a b : Rat) : Rat :=
  a - b * (if 0 ≤ a / b then ((a / b).floor : Rat) else ((a / b).ceil : Rat))

/-- JS `Set.prototype.add`: append when absent, keeping insertion order. -/
def setAdd (l : List Rat) (x : Rat) : List Rat :=
  if x ∈ l then l else l ++ [x]

/-- Score of one candidate boundary tick inside `chooseSplitBoundary`;
returns the clamped tick together with its score. -/
def boundaryScore (notes : List Note) (clampedTarget minTick maxTick : Int)
    (barTicks : Rat) (rawTick : Rat) : Int × Rat :=
  (clampZ (jsRound rawTick) minTick maxTick,
    (countBoundaryNotesAtTick notes ((clampZ (jsRound rawTick) minTick maxTick : Int) : Rat) : Rat) * (2 / 25) -
    (countActiveNotesAtTick notes ((clampZ (jsRound rawTick) minTick maxTick : Int) : Rat) : Rat) * 2 -
    ((|clampZ (jsRound rawTick) minTick maxTick - clampedTarget| : Int) : Rat) / max 1 barTicks * (9 / 5) +
    (if jsModQ ((clampZ (jsRound rawTick) minTick maxTick : Int) : Rat) barTicks = 0 then 9 / 20 else 0))

/-- One step of the best-candidate fold in `chooseSplitBoundary`: the
state is the best tick so far with its score (`none` is the initial JS
`-Infinity`). -/
def boundaryStep (notes : List Note) (clampedTarget minTick maxTick : Int)
    (barTicks : Rat) (st : Int × Option Rat) (rawTick : Rat) : Int × Option Rat :=
  if (match st.2 with
      | none => true
      | some v =>
        decide (v < (boundaryScore notes clampedTarget minTick maxTick barTicks rawTick).2) ||
        (decide (|(boundaryScore notes clampedTarget minTick maxTick barTicks rawTick).2 - v| ≤ 1 / 1000000000) &&
         decide (|(boundaryScore notes clampedTarget minTick maxTick barTicks rawTick).1 - clampedTarget| <
           |st.1 - clampedTarget|))) then
    ((boundaryScore notes clampedTarget minTick maxTick barTicks rawTick).1,
      some (boundaryScore notes clampedTarget minTick maxTick barTicks rawTick).2)
  else st

/-- Candidate list of `chooseSplitBoundary` (the JS `Set`, in insertion
order). -/
def boundaryCandidates (clampedTarget minTick maxTick : Int)
    (searchMin searchMax barTicks : Rat) (notes : List Note) : List Rat :=
  notes.foldl (fun l n =>
    (fun l2 =>
      if searchMin ≤ (jsRound (n.ticks + n.durationTicks) : Rat) ∧
          (jsRound (n.ticks + n.durationTicks) : Rat) ≤ searchMax then
        setAdd l2 ((jsRound (n.ticks + n.durationTicks) : Int) : Rat)
      else l2)
    (if searchMin ≤ (jsRound n.ticks : Rat) ∧ (jsRound n.ticks : Rat) ≤ searchMax then
      setAdd l ((jsRound n.ticks : Int) : Rat)
    else l))
    ((fun l2 =>
      if searchMin ≤ (⌈(clampedTarget : Rat) / barTicks⌉ : Rat) * barTicks ∧
          (⌈(clampedTarget : Rat) / barTicks⌉ : Rat) * barTicks ≤ searchMax then
        setAdd l2 ((⌈(clampedTarget : Rat) / barTicks⌉ : Rat) * barTicks)
      else l2)
    ((fun l1 =>
      if searchMin ≤ (⌊(clampedTarget : Rat) / barTicks⌋ : Rat) * barTicks ∧
          (⌊(clampedTarget : Rat) / barTicks⌋ : Rat) * barTicks ≤ searchMax then
        setAdd l1 ((⌊(clampedTarget : Rat) / barTicks⌋ : Rat) * barTicks)
      else l1)
    (List.foldl setAdd []
      [(clampedTarget : Rat), searchMin, searchMax, (minTick : Rat), (maxTick : Rat)])))

/-- JS `chooseSplitBoundary(targetTick, minTick, maxTick, notes, ppq)`. -/
def chooseSplitBoundary (targetTick : Rat) (minTick maxTick : Int)
    (notes : List Note) (ppq : Rat) : Int :=
  if maxTick ≤ minTick then minTick
  else
    (List.foldl
      (boundaryStep notes (clampZ (jsRound targetTick) minTick maxTick) minTick maxTick
        (max 1 (ppq * 4)))
      (clampZ (jsRound targetTick) minTick maxTick, (none : Option Rat))
      (boundaryCandidates (clampZ (jsRound targetTick) minTick maxTick) minTick maxTick
        (max (minTick : Rat)
          ((clampZ (jsRound targetTick) minTick maxTick : Int) -
            clampQ (((maxTick - minTick).fdiv 4 : Int) : Rat) ppq (ppq * 4)))
        (min (maxTick : Rat)
          ((clampZ (jsRound targetTick) minTick maxTick : Int) +
            clampQ (((maxTick - minTick).fdiv 4 : Int) : Rat) ppq (ppq * 4)))
        (max 1 (ppq * 4)) notes)).1

/-- Complexity profile built by `buildComplexityProfile` (the JS `prefix`
array is named `cum` here). -/
structure ComplexityProfile where
  sliceTicks : Int
  weights : List Rat
  cum : List Rat
  totalWeight : Rat

/-- Per-note accumulation step of `buildComplexityProfile` over the
`onset`, `release` and `sustainDiff` arrays. -/
def cpStep (bucketCount sliceTicks : Int)
    (acc : List Nat × List Nat × List Int) (n : Note) :
    List Nat × List Nat × List Int :=
  let start := (clampZ ⌊n.ticks / (sliceTicks : Rat)⌋ 0 (bucketCount - 1)).toNat
  let endTick := max n.ticks (n.ticks + n.durationTicks - 1)
  let e := (clampZ ⌊endTick / (sliceTicks : Rat)⌋ (start : Int) (bucketCount - 1)).toNat
  let sd := acc.2.2.set start (acc.2.2.getD start 0 + 1)
  (acc.1.set start (acc.1.getD start 0 + 1),
   acc.2.1.set e (acc.2.1.getD e 0 + 1),
   if e + 1 < sd.length then sd.set (e + 1) (sd.getD (e + 1) 0 - 1) else sd)

/-- Weight loop of `buildComplexityProfile`: base weight 1, onset weight
4, release weight 1.8, running sustain weight 0.2. -/
def cpWeights : List Nat → List Nat → List Int → Int → List Rat
  | o :: os, r :: rs, d :: ds, sustain =>
    (1 + (o : Rat) * 4 + (r : Rat) * (9 / 5) + ((sustain + d : Int) : Rat) * (1 / 5)) ::
      cpWeights os rs ds (sustain + d)
  | _, _, _, _ => []

/-- Running prefix sums (the JS `prefix` array, one entry longer than the
input). -/
def cumFrom : List Rat → Rat → List Rat
  | [], acc => [acc]
  | w :: ws, acc => acc :: cumFrom ws (acc + w)

/-- JS `buildComplexityProfile(totalTicks, notes, ppq)`. -/
def buildComplexityProfile (totalTicks : Rat) (notes : List Note) (ppq : Rat) :
    Option ComplexityProfile :=
  if notes = [] then none
  else
    let safeTotal : Int := max 1 ⌈totalTicks⌉
    let sliceTicks : Int := max 1 (jsRound (ppq / 8))
    let bucketCount : Int := max 1 ⌈(safeTotal : Rat) / (sliceTicks : Rat)⌉
    let acc := notes.foldl (cpStep bucketCount sliceTicks)
      (List.replicate bucketCount.toNat 0,
       List.replicate bucketCount.toNat 0,
       List.replicate (bucketCount.toNat + 1) 0)
    let weights := cpWeights acc.1 acc.2.1 acc.2.2 0
    let cum := cumFrom weights 0
    some ⟨sliceTicks, weights, cum, cum.getLast?.getD 0⟩

/-- JS `resolveTickByComplexity(profile, targetWeight, totalTicks)` on a
present profile (the JS `!profile` early return is handled at the call
site; a rational `totalWeight` is always finite). -/
def resolveTickByComplexity (p : ComplexityProfile) (targetWeight : Rat)
    (totalTicks : Int) : Int :=
  if p.totalWeight ≤ 0 then clampZ (jsRound targetWeight) 0 totalTicks
  else
    let clampedTarget := clampQ targetWeight 0 p.totalWeight
    let bucket := ((p.cum.drop 1).findIdx? (fun v => clampedTarget ≤ v)).getD
      (p.weights.length - 1)
    let weightInBucket := max (1 / 1000000000) (p.weights.getD bucket 0)
    let before := p.cum.getD bucket 0
    let ratio := clampQ ((clampedTarget - before) / weightInBucket) 0 1
    clampZ (jsRound (((bucket : Rat) + ratio) * (p.sliceTicks : Rat))) 0 totalTicks

/-- One emitted tick range (`end` is `stop`, as in `Run`). -/
structure TickRange where
  start : Int
  stop : Int
deriving DecidableEq, Repr

/-- Target tick for the boundary of iteration `i` of `splitTickRanges`:
the rounded average of the time-proportional target and the
complexity-weighted target. -/
def sbTarget (safeTotal : Int) (count i : Nat)
    (profile : Option ComplexityProfile) : Int :=
  jsRound (((jsRound ((safeTotal : Rat) * (i : Rat) / (count : Rat)) +
    (match profile with
      | some p =>
        resolveTickByComplexity p (p.totalWeight * (i : Rat) / (count : Rat)) safeTotal
      | none => jsRound ((safeTotal : Rat) * (i : Rat) / (count : Rat))) : Int) : Rat) / 2)

/-- Interior-boundary loop of `splitTickRanges`: emits the boundaries for
`i, i+1, ...` while `r` counts the remaining loop iterations
(`r = count - i`), threading the previous boundary. -/
def sbGo (safeTotal minSegment : Int) (count : Nat) (notes : List Note)
    (ppq : Rat) (profile : Option ComplexityProfile) :
    Nat → Nat → Int → List Int
  | _, 0, _ => []
  | i, r + 1, previous =>
    chooseSplitBoundary ((sbTarget safeTotal count i profile : Int) : Rat)
      (max (previous + minSegment) (i : Int))
      (max (max (previous + minSegment) (i : Int))
        (safeTotal - ((count - i : Nat) : Int) * minSegment))
      notes ppq ::
    sbGo safeTotal minSegment count notes ppq profile (i + 1) r
      (chooseSplitBoundary ((sbTarget safeTotal count i profile : Int) : Rat)
        (max (previous + minSegment) (i : Int))
        (max (max (previous + minSegment) (i : Int))
          (safeTotal - ((count - i : Nat) : Int) * minSegment))
        notes ppq)

/-- Range list from the boundary list: one range per consecutive pair,
with `end` forced past `start`. -/
def rangesFromBoundaries : List Int → List TickRange
  | b0 :: b1 :: rest => ⟨b0, max (b0 + 1) b1⟩ :: rangesFromBoundaries (b1 :: rest)
  | _ => []

/-- Final `ranges[ranges.length - 1].end = safeTotal` overwrite. -/
def setLastStop (s : Int) : List TickRange → List TickRange
  | [] => []
  | [r] => [⟨r.start, s⟩]
  | r :: q :: rest => r :: setLastStop s (q :: rest)

/-- JS `splitTickRanges(totalTicks, count, notes, ppq)`. -/
def splitTickRanges (totalTicks : Rat) (count : Nat) (notes : List Note)
    (ppq : Rat) : List TickRange :=
  if count ≤ 1 then [⟨0, max 1 ⌈totalTicks⌉⟩]
  else
    setLastStop (max 1 ⌈totalTicks⌉)
      (rangesFromBoundaries
        (0 :: sbGo (max 1 ⌈totalTicks⌉)
            (max 1 ((max 1 ⌈totalTicks⌉).fdiv ((count : Int) * 4))) count notes ppq
            (buildComplexityProfile ((max 1 ⌈totalTicks⌉ : Int) : Rat) notes ppq) 1 (count - 1) 0 ++
          [max 1 ⌈totalTicks⌉]))

theorem clampZ_bounds (x lo hi : Int) (h : lo ≤ hi) :
    lo ≤ clampZ x lo hi ∧ clampZ x lo hi ≤ hi := by
  unfold clampZ
  omega

theorem boundaryStep_fst (notes : List Note) (ct minT maxT : Int) (bar : Rat)
    (st : Int × Option Rat) (c : Rat) :
    (boundaryStep notes ct minT maxT bar st c).1 = st.1 ∨
    (boundaryStep notes ct minT maxT bar st c).1 = clampZ (jsRound c) minT maxT := by
  unfold boundaryStep
  split
  · right
    rfl
  · left
    rfl

theorem boundaryFold_mem (notes : List Note) (ct minT maxT : Int) (bar : Rat)
    (h : minT ≤ maxT) :
    ∀ (cands : List Rat) (st : Int × Option Rat), minT ≤ st.1 → st.1 ≤ maxT →
    minT ≤ (List.foldl (boundaryStep notes ct minT maxT bar) st cands).1 ∧
    (List.foldl (boundaryStep notes ct minT maxT bar) st cands).1 ≤ maxT := by
  intro cands
  induction cands with
  | nil => intro st h1 h2; exact ⟨h1, h2⟩
  | cons c cs ih =>
    intro st h1 h2
    rw [List.foldl_cons]
    apply ih
    · rcases boundaryStep_fst notes ct minT maxT bar st c with he | he
      · rw [he]; exact h1
      · rw [he]; exact (clampZ_bounds _ _ _ h).1
    · rcases boundaryStep_fst notes ct minT maxT bar st c with he | he
      · rw [he]; exact h2
      · rw [he]; exact (clampZ_bounds _ _ _ h).2

theorem chooseSplitBoundary_range (t : Rat) (minT maxT : Int)
    (notes : List Note) (ppq : Rat) :
    minT ≤ chooseSplitBoundary t minT maxT notes ppq ∧
    chooseSplitBoundary t minT maxT notes ppq ≤ max minT maxT := by
  unfold chooseSplitBoundary
  by_cases hle : maxT ≤ minT
  · rw [if_pos hle]
    exact ⟨le_refl _, le_max_left _ _⟩
  · rw [if_neg hle]
    have h : minT ≤ maxT := by omega
    have hinit := clampZ_bounds (jsRound t) minT maxT h
    have hf := boundaryFold_mem notes (clampZ (jsRound t) minT maxT) minT maxT
      (max 1 (ppq * 4)) h
      (boundaryCandidates (clampZ (jsRound t) minT maxT) minT maxT
        (max (minT : Rat)
          ((clampZ (jsRound t) minT maxT : Int) -
            clampQ (((maxT - minT).fdiv 4 : Int) : Rat) ppq (ppq * 4)))
        (min (maxT : Rat)
          ((clampZ (jsRound t) minT maxT : Int) +
            clampQ (((maxT - minT).fdiv 4 : Int) : Rat) ppq (ppq * 4)))
        (max 1 (ppq * 4)) notes)
      (clampZ (jsRound t) minT maxT, (none : Option Rat)) hinit.1 hinit.2
    exact ⟨hf.1, le_trans hf.2 (le_max_right _ _)⟩

theorem sbGo_length (S m : Int) (count : Nat) (notes : List Note) (ppq : Rat)
    (profile : Option ComplexityProfile) :
    ∀ (r i : Nat) (prev : Int),
    (sbGo S m count notes ppq profile i r prev).length = r := by
  intro r
  induction r with
  | zero => intro i prev; rw [sbGo]; rfl
  | succ r ih =>
    intro i prev
    rw [sbGo]
    rw [List.length_cons, ih]

theorem sbGo_chain (S m : Int) (count : Nat) (notes : List Note) (ppq : Rat)
    (profile : Option ComplexityProfile) (hm : 1 ≤ m)
    (hc : (count : Int) * m ≤ S) :
    ∀ (r i : Nat) (prev : Int), i + r = count → 1 ≤ i →
    prev + m ≤ S - ((count - i : Nat) : Int) * m →
    List.Chain (fun a b => a + m ≤ b) prev
      (sbGo S m count notes ppq profile i r prev ++ [S]) := by
  intro r
  induction r with
  | zero =>
    intro i prev hi h1 hinv
    rw [sbGo]
    rw [List.nil_append]
    refine List.Chain.cons ?_ List.Chain.nil
    have hcast : ((count - i : Nat) : Int) = 0 := by omega
    rw [hcast] at hinv
    omega
  | succ r ih =>
    intro i prev hi h1 hinv
    rw [sbGo]
    rw [List.cons_append]
    have hik : (i : Int) * m + ((count - i : Nat) : Int) * m = (count : Int) * m := by
      have hcast : ((count - i : Nat) : Int) = (count : Int) - (i : Int) := by omega
      rw [hcast]
      ring
    have hii : (i : Int) ≤ (i : Int) * m :=
      le_mul_of_one_le_right (by omega) hm
    have hrange := chooseSplitBoundary_range
      ((sbTarget S count i profile : Int) : Rat)
      (max (prev + m) (i : Int))
      (max (max (prev + m) (i : Int))
        (S - ((count - i : Nat) : Int) * m)) notes ppq
    refine List.Chain.cons ?_ ?_
    · omega
    · apply ih (i + 1)
      · omega
      · omega
      · have hcast1 : ((count - (i + 1) : Nat) : Int) * m + m =
            ((count - i : Nat) : Int) * m := by
          have hc1 : ((count - (i + 1) : Nat) : Int) = ((count - i : Nat) : Int) - 1 := by
            omega
          rw [hc1]
          ring
        omega

theorem rangesFromBoundaries_length : ∀ (l : List Int),
    (rangesFromBoundaries l).length = l.length - 1 := by
  intro l
  match l with
  | [] => rfl
  | [b] => rfl
  | b0 :: b1 :: rest =>
    rw [rangesFromBoundaries, List.length_cons,
      rangesFromBoundaries_length (b1 :: rest)]
    simp

theorem setLastStop_length (s : Int) : ∀ (l : List TickRange),
    (setLastStop s l).length = l.length := by
  intro l
  match l with
  | [] => rfl
  | [r] => rfl
  | r :: q :: rest =>
    rw [setLastStop, List.length_cons, setLastStop_length s (q :: rest)]
    rfl

theorem spans_aux (m S : Int) (hm : 1 ≤ m) :
    ∀ (l : List Int) (a : Int),
    List.Chain (fun x y => x + m ≤ y) a l →
    l.getLast? = some S →
    ∀ r ∈ setLastStop S (rangesFromBoundaries (a :: l)),
      m ≤ r.stop - r.start := by
  intro l
  induction l with
  | nil =>
    intro a hch hlast
    simp at hlast
  | cons b l ih =>
    intro a hch hlast
    cases hch with
    | cons h1 h2 =>
      cases l with
      | nil =>
        simp at hlast
        subst hlast
        intro r hr
        have e1 : rangesFromBoundaries [a, b] = [⟨a, max (a + 1) b⟩] := rfl
        have e2 : setLastStop b [(⟨a, max (a + 1) b⟩ : TickRange)] = [⟨a, b⟩] := rfl
        rw [e1, e2] at hr
        rcases List.mem_cons.mp hr with he | he
        · subst he
          simp
          omega
        · simp at he
      | cons c l2 =>
        intro r hr
        rw [rangesFromBoundaries, rangesFromBoundaries, setLastStop] at hr
        rcases List.mem_cons.mp hr with he | he
        · subst he
          simp
          omega
        · have hlast2 : (c :: l2).getLast? = some S := by
            rw [List.getLast?_cons_cons] at hlast
            exact hlast
          have H := ih b h2 hlast2
          rw [rangesFromBoundaries] at H
          exact H r he

/-- C8 counterexample: with totalTicks 1, two players, no notes and ppq
480, the splitter returns a second range spanning 0 ticks, which is less
than totalTicks divided by four times the player count. -/
theorem splitTickRanges_counterexample :
    ∃ r ∈ splitTickRanges 1 2 [] 480,
      ((r.stop - r.start : Int) : Rat) < 1 / (4 * 2) := by
  with_unfolding_all decide

/-- C8 (amended): for player count N at least 2 and at most the safe
total (the tick total rounded up, at least 1), the splitter returns
exactly N ranges and every range spans at least the code minimum segment,
namely the larger of 1 and the floor of safeTotal over 4N. Without the
upper bound on N (or with the exact rational totalTicks over 4N instead
of the code minimum), ranges can be shorter. -/
theorem splitTickRanges_min_span (totalTicks : Rat) (count : Nat)
    (notes : List Note) (ppq : Rat) (h2 : 2 ≤ count)
    (hN : (count : Int) ≤ max 1 ⌈totalTicks⌉) :
    (splitTickRanges totalTicks count notes ppq).length = count ∧
    ∀ r ∈ splitTickRanges totalTicks count notes ppq,
      max 1 ((max 1 ⌈totalTicks⌉).fdiv ((count : Int) * 4)) ≤ r.stop - r.start := by
  have hS1 : (1 : Int) ≤ max 1 ⌈totalTicks⌉ := le_max_left _ _
  have hm : (1 : Int) ≤ max 1 ((max 1 ⌈totalTicks⌉).fdiv ((count : Int) * 4)) :=
    le_max_left _ _
  have hc : (count : Int) * max 1 ((max 1 ⌈totalTicks⌉).fdiv ((count : Int) * 4)) ≤
      max 1 ⌈totalTicks⌉ := by
    rcases le_or_lt ((max 1 ⌈totalTicks⌉).fdiv ((count : Int) * 4)) 1 with hq | hq
    · rw [max_eq_left hq, mul_one]
      exact hN
    · rw [max_eq_right (le_of_lt hq)]
      have hfa := Int.fmod_add_fdiv (max 1 ⌈totalTicks⌉) ((count : Int) * 4)
      have hmod0 : 0 ≤ (max 1 ⌈totalTicks⌉).fmod ((count : Int) * 4) :=
        Int.fmod_nonneg' _ (by positivity)
      have hq0 : (0 : Int) ≤ (max 1 ⌈totalTicks⌉).fdiv ((count : Int) * 4) := by omega
      have hA : (0 : Int) ≤ (count : Int) * ((max 1 ⌈totalTicks⌉).fdiv ((count : Int) * 4)) :=
        mul_nonneg (by positivity) hq0
      have hr4 : ((count : Int) * 4) * ((max 1 ⌈totalTicks⌉).fdiv ((count : Int) * 4)) =
          4 * ((count : Int) * ((max 1 ⌈totalTicks⌉).fdiv ((count : Int) * 4))) := by
        ring
      omega
  have hbase : (0 : Int) + max 1 ((max 1 ⌈totalTicks⌉).fdiv ((count : Int) * 4)) ≤
      max 1 ⌈totalTicks⌉ -
        ((count - 1 : Nat) : Int) * max 1 ((max 1 ⌈totalTicks⌉).fdiv ((count : Int) * 4)) := by
    have hcast : ((count - 1 : Nat) : Int) = (count : Int) - 1 := by omega
    have hring : ((count : Int) - 1) * max 1 ((max 1 ⌈totalTicks⌉).fdiv ((count : Int) * 4)) +
        max 1 ((max 1 ⌈totalTicks⌉).fdiv ((count : Int) * 4)) =
        (count : Int) * max 1 ((max 1 ⌈totalTicks⌉).fdiv ((count : Int) * 4)) := by
      ring
    rw [hcast]
    omega
  have hchain := sbGo_chain (max 1 ⌈totalTicks⌉)
    (max 1 ((max 1 ⌈totalTicks⌉).fdiv ((count : Int) * 4))) count notes ppq
    (buildComplexityProfile ((max 1 ⌈totalTicks⌉ : Int) : Rat) notes ppq) hm hc
    (count - 1) 1 0 (by omega) (le_refl 1) hbase
  have hchain2 : List.Chain
      (fun a b => a + max 1 ((max 1 ⌈totalTicks⌉).fdiv ((count : Int) * 4)) ≤ b) 0
      ((sbGo (max 1 ⌈totalTicks⌉)
          (max 1 ((max 1 ⌈totalTicks⌉).fdiv ((count : Int) * 4))) count notes ppq
          (buildComplexityProfile ((max 1 ⌈totalTicks⌉ : Int) : Rat) notes ppq) 1
          (count - 1) 0) ++ [max 1 ⌈totalTicks⌉]) := hchain
  have hlast : ((sbGo (max 1 ⌈totalTicks⌉)
      (max 1 ((max 1 ⌈totalTicks⌉).fdiv ((count : Int) * 4))) count notes ppq
      (buildComplexityProfile ((max 1 ⌈totalTicks⌉ : Int) : Rat) notes ppq) 1
      (count - 1) 0) ++ [max 1 ⌈totalTicks⌉]).getLast? = some (max 1 ⌈totalTicks⌉) :=
    List.getLast?_concat _
  constructor
  · unfold splitTickRanges
    rw [if_neg (by omega : ¬ count ≤ 1)]
    rw [setLastStop_length, rangesFromBoundaries_length]
    simp only [List.length_cons, List.length_append, List.length_singleton,
      List.length_nil, sbGo_length]
    omega
  · intro r hr
    unfold splitTickRanges at hr
    rw [if_neg (by omega : ¬ count ≤ 1)] at hr
    exact spans_aux _ _ hm _ 0 hchain2 hlast r hr

/-- Witness for the amended C8 theorem at totalTicks 10, two players, no
notes, ppq 1. -/
theorem splitTickRanges_min_span_witness :
    (splitTickRanges 10 2 [] 1).length = 2 ∧
    ∀ r ∈ splitTickRanges 10 2 [] 1,
      max 1 ((max 1 ⌈(10 : Rat)⌉).fdiv (((2 : Nat) : Int) * 4)) ≤ r.stop - r.start :=
  splitTickRanges_min_span 10 2 [] 1 (by decide) (by with_unfolding_all decide)

end MidToChord

namespace MidToChord

/-! ### Part-text search (`buildPartText` and helpers) -/

/-- Comparator of `computeNotesOverlapRatio`
(`a.ticks - b.ticks || a.midi - b.midi`) as the weak order used by a
stable sort. -/
def overlapLe (a b : Note) : Prop :=
  a.ticks < b.ticks ∨ (a.ticks = b.ticks ∧ a.midi ≤ b.midi)

instance : DecidableRel overlapLe := fun a b => by
  unfold overlapLe; infer_instance

/-- Overlap-count loop of `computeNotesOverlapRatio`, threading
`activeEnd`. -/
def overlapGo : List Note → Rat → Nat → Nat
  | [], _, cnt => cnt
  | n :: rest, activeEnd, cnt =>
    overlapGo rest (max activeEnd (n.ticks + n.durationTicks))
      (if n.ticks < activeEnd then cnt + 1 else cnt)

/-- JS `computeNotesOverlapRatio(notes)`. -/
def computeNotesOverlapRatio (notes : List Note) : Rat :=
  if notes = [] then 0
  else
    ((overlapGo (List.insertionSort overlapLe notes) (-1) 0 : Nat) : Rat) /
      max 1 ((notes.length : Nat) : Rat)

/-- Write `value` onto indices `start ≤ i < stop` of a sequence (the JS
in-place `sequence[step] = v` loop; all writes in this file stay within
the array bounds). -/
def writeRange (v : StepValue) (start stop : Nat) (seq : List StepValue) :
    List StepValue :=
  seq.mapIdx (fun i x => if start ≤ i ∧ i < stop then v else x)

/-- Comparator of `buildMonophonicSequence`
(`a.ticks - b.ticks || b.midi - a.midi || b.durationTicks - a.durationTicks`). -/
def monoSeqLe (a b : Note) : Prop :=
  a.ticks < b.ticks ∨ (a.ticks = b.ticks ∧
    (b.midi < a.midi ∨ (b.midi = a.midi ∧ b.durationTicks ≤ a.durationTicks)))

instance : DecidableRel monoSeqLe := fun a b => by
  unfold monoSeqLe; infer_instance

/-- JS `buildMonophonicSequence(notes, stepTicks, targetEndTicks)`. -/
def buildMonophonicSequence (notes : List Note) (stepTicks : Rat)
    (targetEndTicks : Rat := 0) : List StepValue :=
  if notes = [] then List.replicate (totalStepsFor notes stepTicks targetEndTicks) none
  else
    (List.insertionSort monoSeqLe notes).foldl (fun seq n =>
      writeRange (some n.midi)
        (clampZ (jsRound (n.ticks / stepTicks)) 0
          ((totalStepsFor notes stepTicks targetEndTicks : Nat) - 1)).toNat
        (clampZ
          (max ((clampZ (jsRound (n.ticks / stepTicks)) 0
            ((totalStepsFor notes stepTicks targetEndTicks : Nat) - 1)) + 1)
            (jsRound ((n.ticks + n.durationTicks) / stepTicks)))
          ((clampZ (jsRound (n.ticks / stepTicks)) 0
            ((totalStepsFor notes stepTicks targetEndTicks : Nat) - 1)) + 1)
          (totalStepsFor notes stepTicks targetEndTicks : Nat)).toNat seq)
      (List.replicate (totalStepsFor notes stepTicks targetEndTicks) none)

/-- Note-emission loop of `buildMonophonicRunsFromNotes`, threading the
cursor; the JS `break` returns the accumulated pair early. -/
def monoRunsGo (stepTicks : Rat) (totalSteps : Nat) :
    List Note → Nat → List Run → List Run × Nat
  | [], cursor, acc => (acc, cursor)
  | n :: rest, cursor, acc =>
    let start0 := (clampZ ⌈n.ticks / stepTicks⌉ 0 ((totalSteps : Int) - 1)).toNat
    let end0 := (clampZ ⌈(n.ticks + n.durationTicks) / stepTicks⌉
      ((start0 : Int) + 1) (totalSteps : Int)).toNat
    let start1 := if start0 < cursor then cursor else start0
    if totalSteps ≤ start1 then (acc, cursor)
    else
      let end1 := if end0 ≤ start1 then min totalSteps (start1 + 1) else end0
      if end1 ≤ start1 then monoRunsGo stepTicks totalSteps rest cursor acc
      else
        monoRunsGo stepTicks totalSteps rest end1
          (acc ++
            (if cursor < start1 then
              [⟨none, cursor, start1, start1 - cursor⟩]
            else []) ++
            [⟨some n.midi, start1, end1, end1 - start1⟩])

/-- JS `buildMonophonicRunsFromNotes(notes, stepTicks, targetEndTicks,
keepTrailingRests)`. -/
def buildMonophonicRunsFromNotes (notes : List Note) (stepTicks : Rat)
    (targetEndTicks : Rat := 0) (keepTrailingRests : Bool := false) : List Run :=
  let totalSteps := totalStepsFor notes stepTicks targetEndTicks
  if notes = [] then [⟨none, 0, totalSteps, totalSteps⟩]
  else
    let looped := monoRunsGo stepTicks totalSteps (sortNotesByTime notes) 0 []
    let runs := if keepTrailingRests ∧ looped.2 < totalSteps then
        looped.1 ++ [⟨none, looped.2, totalSteps, totalSteps - looped.2⟩]
      else looped.1
    if runs = [] then [⟨none, 0, totalSteps, totalSteps⟩] else runs

/-- JS `runsToSequence(runs, totalLength)` (every run in this file lies
within `totalLength`, so in-bounds writes model the JS array). -/
def runsToSequence (runs : List Run) (totalLength : Nat) : List StepValue :=
  runs.foldl (fun seq run => writeRange run.value run.start run.stop seq)
    (List.replicate totalLength none)

/-- Replacement value for one short run of `simplifySequence`. The JS
`left` is the already-mutated previous value, so the scan threads it;
`null` covers both a missing neighbour and a rest neighbour, exactly as
in the JS. -/
def simplifyReplacement (value left right : StepValue) : StepValue :=
  match value with
  | none =>
    match left, right with
    | some l, some r => if l = r then some l else none
    | some l, none => some l
    | none, some r => some r
    | none, none => none
  | some v =>
    match left, right with
    | some l, some r => if (l - v).natAbs ≤ (r - v).natAbs then some l else some r
    | some l, none => some l
    | none, some r => some r
    | none, none => some v

/-- One in-place mutation pass over the runs of `simplifySequence`,
returning the new runs and the JS `changed` flag. -/
def simplifyScan (shortThreshold : Nat) : List Run → StepValue → List Run × Bool
  | [], _ => ([], false)
  | run :: rest, left =>
    let right := match rest with
      | [] => none
      | r2 :: _ => r2.value
    let newVal := if shortThreshold < run.length then run.value
      else simplifyReplacement run.value left right
    let tail := simplifyScan shortThreshold rest newVal
    (⟨newVal, run.start, run.stop, run.length⟩ :: tail.1,
      (decide (newVal ≠ run.value)) || tail.2)

/-- Pass loop of `simplifySequence` (`pass` is the JS loop counter, the
first argument the remaining passes). -/
def simplifyGo (mode : Mode) : Nat → Nat → List StepValue → List StepValue
  | 0, _, working => working
  | fuel + 1, pass, working =>
    let threshold := match mode with
      | Mode.melody => 1 + pass
      | _ => 2 + pass
    let scanned := simplifyScan threshold (sequenceToRuns working) none
    if scanned.2 = false then working
    else simplifyGo mode fuel (pass + 1) (runsToSequence scanned.1 working.length)

/-- JS `simplifySequence(sequence, mode, level)`. -/
def simplifySequence (sequence : List StepValue) (mode : Mode) (level : Nat) :
    List StepValue :=
  if level = 0 ∨ sequence.length < 3 then sequence
  else simplifyGo mode level 0 sequence

/-- JS `normalizeRuns(runs, baseLength, keepTrailingRests)` (the pop-while
loop drops the trailing rest runs). -/
def normalizeRuns (runs : List Run) (baseLength : Nat)
    (keepTrailingRests : Bool := false) : List Run :=
  let normalized := if keepTrailingRests then runs
    else (runs.reverse.dropWhile (fun r => r.value = none)).reverse
  if normalized = [] then [⟨none, 0, baseLength, baseLength⟩] else normalized

/-- JS `getNotesEndTicks(notes)`. -/
def getNotesEndTicks (notes : List Note) : Rat :=
  notes.foldl (fun m n => max m (n.ticks + n.durationTicks)) 0

/-- Loop of `evaluateSequenceFidelityWithinTicks`: like `fidelityGo` but
stopping past `maxTicks` and counting the visited steps. -/
def fidelityWGo (candidateSequence : List StepValue)
    (candidateStepTicks referenceStepTicks maxTicks : Rat) :
    List StepValue → Nat → StepValue → StepValue → Rat → Nat → Rat × Nat
  | [], _, _, _, acc, cnt => (acc, cnt)
  | referencePitch :: rest, i, prevReference, prevCandidate, acc, cnt =>
    if maxTicks < (i : Rat) * referenceStepTicks then (acc, cnt)
    else
      let s := fidelityStep candidateSequence candidateStepTicks referenceStepTicks i
        referencePitch prevReference prevCandidate
      fidelityWGo candidateSequence candidateStepTicks referenceStepTicks maxTicks rest
        (i + 1) referencePitch s.2 (acc + s.1) (cnt + 1)

/-- JS `evaluateSequenceFidelityWithinTicks(...)` (`none` models the JS
`-Infinity`; a rational `maxTicks` is always finite). -/
def evaluateSequenceFidelityWithinTicks (referenceSequence : List StepValue)
    (referenceStepTicks : Rat) (candidateSequence : List StepValue)
    (candidateStepTicks maxTicks : Rat) : Option Rat :=
  if referenceSequence = [] ∨ candidateSequence = [] then none
  else if maxTicks ≤ 0 then
    evaluateSequenceFidelity referenceSequence referenceStepTicks candidateSequence
      candidateStepTicks
  else
    let r := fidelityWGo candidateSequence candidateStepTicks referenceStepTicks maxTicks
      referenceSequence 0 none none 0 0
    if r.2 = 0 then
      evaluateSequenceFidelity referenceSequence referenceStepTicks candidateSequence
        candidateStepTicks
    else some (r.1 / (r.2 : Rat))

/-- Per-part character budgets (the JS `LIMITS` table). -/
def LIMITS : Mode → Nat
  | Mode.melody => 1200
  | Mode.chord1 => 800
  | Mode.chord2 => 500

/-- Configuration record of `buildPartText` (the `returnMeta` variant
returns the same `text`, so only the text result is modelled; `limit` is
the finite JS `safeLimit`; the JS field `strictPrefix` is spelled
`strictM` because of a reserved suffix). -/
structure PartConfig where
  notes : List Note
  mode : Mode
  limit : Nat
  tempo : Int
  volume : Int
  includeTempo : Bool
  ppq : Rat
  compress : Bool
  targetDurationTicks : Rat
  strictM : Bool
deriving Repr

/-- `forcedEndTicks` of `buildPartText`. -/
def partForcedEnd (cfg : PartConfig) : Rat :=
  if 0 < cfg.targetDurationTicks then cfg.targetDurationTicks else 0

/-- `keepTrailingRests` of `buildPartText`. -/
def partKeep (cfg : PartConfig) : Bool :=
  decide (0 < partForcedEnd cfg)

/-- `preferMonophonicFlow` of `buildPartText`. -/
def partPreferMono (cfg : PartConfig) : Bool :=
  decide (computeNotesOverlapRatio cfg.notes ≤ 35 / 100)

/-- `referenceSequence` of `buildPartText` (96 reference steps per
quarter). -/
def partRefSeq (cfg : PartConfig) : List StepValue :=
  if partPreferMono cfg then
    buildMonophonicSequence cfg.notes (cfg.ppq / 96) (partForcedEnd cfg)
  else buildStepSequence cfg.notes (cfg.ppq / 96) cfg.mode (partForcedEnd cfg)

/-- `frontPriorityTicks` of `buildPartText`. -/
def partFrontTicks (cfg : PartConfig) : Rat :=
  max (cfg.ppq * 64) (min (cfg.ppq * 192)
    ((⌊(if 0 < partForcedEnd cfg then partForcedEnd cfg
        else getNotesEndTicks cfg.notes) * (35 / 100)⌋ : Int) : Rat))

/-- The `melodyCompressSteps` resolution list. -/
def melodyCompressSteps : List Nat :=
  [128, 112, 96, 80, 64, 48, 40, 32, 24, 20, 16, 12, 10, 8]

/-- The `harmonyCompressSteps` resolution list. -/
def harmonyCompressSteps : List Nat :=
  [128, 112, 96, 80, 64, 48, 40, 32, 24, 20, 16, 12, 10, 8, 6, 4, 3, 2, 1]

/-- The `normalSteps` resolution list. -/
def normalSteps : List Nat :=
  [128, 112, 96, 80, 64, 48, 40, 32, 24, 20, 16, 12, 10, 8, 6, 4]

/-- `compressStepsByMode` of `buildPartText`. -/
def compressStepsByMode (mode : Mode) : List Nat :=
  if mode = Mode.melody then melodyCompressSteps else harmonyCompressSteps

/-- `stepCandidates` of `buildPartText`. -/
def partStepCandidates (cfg : PartConfig) : List Nat :=
  if cfg.strictM then compressStepsByMode cfg.mode
  else if cfg.compress then compressStepsByMode cfg.mode
  else normalSteps

/-- `simplifyLevelPasses` of `buildPartText`. -/
def partPasses (cfg : PartConfig) : List (List Nat) :=
  if cfg.strictM then [[0]]
  else if cfg.compress then
    (if partPreferMono cfg then [[0]] else [[0], [1, 2, 3]])
  else [[0]]

/-- `baseSequence` for one resolution. -/
def partBaseSeq (cfg : PartConfig) (spq : Nat) : List StepValue :=
  if partPreferMono cfg then
    buildMonophonicSequence cfg.notes (cfg.ppq / (spq : Rat)) (partForcedEnd cfg)
  else buildStepSequence cfg.notes (cfg.ppq / (spq : Rat)) cfg.mode (partForcedEnd cfg)

/-- The candidate run list for one (resolution, simplify-level) pair. -/
def candidateRuns (cfg : PartConfig) (spq level : Nat) : List Run :=
  if partPreferMono cfg ∧ level = 0 then
    buildMonophonicRunsFromNotes cfg.notes (cfg.ppq / (spq : Rat)) (partForcedEnd cfg)
      (partKeep cfg)
  else
    normalizeRuns
      (sequenceToRuns
        (if 0 < level then simplifySequence (partBaseSeq cfg spq) cfg.mode level
         else partBaseSeq cfg spq))
      (4 * spq) (partKeep cfg)

/-- The candidate sequence for one (resolution, simplify-level) pair. -/
def candidateSeq (cfg : PartConfig) (spq level : Nat) : List StepValue :=
  if partPreferMono cfg ∧ level = 0 then
    runsToSequence (candidateRuns cfg spq level) (max 1 (partBaseSeq cfg spq).length)
  else
    (if 0 < level then simplifySequence (partBaseSeq cfg spq) cfg.mode level
     else partBaseSeq cfg spq)

/-- The encoded candidate for one (resolution, simplify-level) pair. -/
def candidateEncoded (cfg : PartConfig) (spq level : Nat) : EncodedResult :=
  encodeRuns (candidateRuns cfg spq level)
    ⟨cfg.tempo, cfg.volume, cfg.includeTempo, 4 * spq⟩

/-- `noteEventCount` of one candidate. -/
def candidateNE (cfg : PartConfig) (spq level : Nat) : Nat :=
  ((candidateRuns cfg spq level).filter (fun r => r.value ≠ none)).length

/-- `fidelity` of one candidate. -/
def candidateFid (cfg : PartConfig) (spq level : Nat) : Option Rat :=
  evaluateSequenceFidelity (partRefSeq cfg) (cfg.ppq / 96)
    (candidateSeq cfg spq level) (cfg.ppq / (spq : Rat))

/-- `earlyFidelity` of one candidate. -/
def candidateEarly (cfg : PartConfig) (spq level : Nat) : Option Rat :=
  evaluateSequenceFidelityWithinTicks (partRefSeq cfg) (cfg.ppq / 96)
    (candidateSeq cfg spq level) (cfg.ppq / (spq : Rat)) (partFrontTicks cfg)

/-- `noteCoverage` of one candidate. -/
def candidateCoverage (cfg : PartConfig) (spq level : Nat) : Rat :=
  if cfg.notes.length ≠ 0 then
    ((candidateNE cfg spq level : Nat) : Rat) / ((cfg.notes.length : Nat) : Rat)
  else 1

/-- `detailBonus` of one resolution. -/
def detailBonus (spq : Nat) : Rat :=
  min (22 / 100) ((spq : Rat) / 700)

/-- `fidelityScore` (and the identical `fallbackScore`) of one candidate;
`none` is the JS `-Infinity` propagated through the arithmetic. -/
def candScore (cfg : PartConfig) (spq level : Nat) : Option Rat :=
  match candidateFid cfg spq level, candidateEarly cfg spq level with
  | some f, some e =>
    some (f - (level : Rat) * (14 / 100) + detailBonus spq +
      candidateCoverage cfg spq level * (3 / 100) +
      e * (if cfg.compress then 35 / 100 else 12 / 100))
  | _, _ => none

/-- `overflowScore` of one candidate. -/
def overScore (cfg : PartConfig) (spq level : Nat) : Option Rat :=
  match candidateFid cfg spq level, candidateEarly cfg spq level with
  | some f, some e =>
    some (f -
      (((candidateEncoded cfg spq level).text.length : Rat) - (cfg.limit : Rat)) /
        max 1 ((cfg.limit : Nat) : Rat) * 3 -
      (level : Rat) * (16 / 100) + detailBonus spq * (4 / 10) +
      candidateCoverage cfg spq level * (5 / 100) +
      e * (if cfg.compress then 55 / 100 else 18 / 100))
  | _, _ => none

/-- JS `a > b + 1e-9` on scores where either side may be `-Infinity`. -/
def eGtE : Option Rat → Option Rat → Bool
  | some x, some y => decide (y + 1 / 1000000000 < x)
  | some _, none => true
  | none, _ => false

/-- JS `Math.abs(a - b) <= 1e-9` on scores where either side may be
`-Infinity` (`NaN` and `Infinity` compare false). -/
def eAbsLeE : Option Rat → Option Rat → Bool
  | some x, some y => decide (|x - y| ≤ 1 / 1000000000)
  | _, _ => false

/-- Fields of a stored `bestWithinLimit`/`lowPriorityWithin` candidate
that the rest of the search reads. -/
structure WithinCand where
  text : String
  spq : Nat
  ne : Nat
  score : Option Rat
deriving Repr

/-- Fields of a stored `bestOverflow` candidate that the rest of the
search reads. -/
structure OverCand where
  textLen : Nat
  tokens : List String
  tokenSteps : List Nat
  ne : Nat
  projectedNotes : Rat
  score : Option Rat
  retainedEndTicks : Rat
  retainedNE : Nat
deriving Repr

/-- Search state of `buildPartText` (`bestWithinLimit`,
`lowPriorityWithin`, `bestOverflow`). -/
structure SearchState where
  bestWithin : Option WithinCand
  lowWithin : Option WithinCand
  bestOver : Option OverCand
deriving Repr

/-- `allowWithinCandidate` of one resolution. -/
def partAllowWithin (cfg : PartConfig) (spq : Nat) : Bool :=
  !(cfg.compress && !cfg.strictM) || decide (6 ≤ spq)

/-- `betterCandidate` test of the within-limit branch. -/
def withinBetter (cfg : PartConfig) (spq level : Nat) : Option WithinCand → Bool
  | none => true
  | some b =>
    if cfg.strictM then
      decide (((b.ne : Nat) : Rat) + 1 / 1000000000 < ((candidateNE cfg spq level : Nat) : Rat)) ||
      (decide (|((candidateNE cfg spq level : Nat) : Rat) - ((b.ne : Nat) : Rat)| ≤ 1 / 1000000000) &&
        (eGtE (candScore cfg spq level) b.score ||
          (eAbsLeE (candScore cfg spq level) b.score &&
            decide ((candidateEncoded cfg spq level).text.length < b.text.length))))
    else
      eGtE (candScore cfg spq level) b.score ||
      (eAbsLeE (candScore cfg spq level) b.score &&
        (decide (b.spq < spq) ||
          (decide (spq = b.spq) &&
            decide ((candidateEncoded cfg spq level).text.length < b.text.length))))

/-- `betterFallback` test of the low-priority branch. -/
def lowBetter (cfg : PartConfig) (spq level : Nat) : Option WithinCand → Bool
  | none => true
  | some b =>
    eGtE (candScore cfg spq level) b.score ||
    (eAbsLeE (candScore cfg spq level) b.score && decide (b.spq < spq))

/-- `retainedEndTicks` of an overflow candidate (0 unless prefix
truncation is enforced). -/
def overRetainedEnd (cfg : PartConfig) (spq level : Nat) : Rat :=
  if cfg.strictM then
    ((truncateTokensWithStats (candidateEncoded cfg spq level).tokens
        (candidateEncoded cfg spq level).tokenSteps cfg.limit).retainedSteps : Rat) *
      (cfg.ppq / (spq : Rat))
  else 0

/-- Retained note-event count of an overflow candidate (0 unless prefix
truncation is enforced). -/
def overRetainedNE (cfg : PartConfig) (spq level : Nat) : Nat :=
  if cfg.strictM then
    (truncateTokensWithStats (candidateEncoded cfg spq level).tokens
      (candidateEncoded cfg spq level).tokenSteps cfg.limit).noteEventCount
  else 0

/-- `projectedNotes` of an overflow candidate. -/
def overProjected (cfg : PartConfig) (spq level : Nat) : Rat :=
  ((candidateNE cfg spq level : Nat) : Rat) *
    min 1 (((cfg.limit : Nat) : Rat) /
      max 1 (((candidateEncoded cfg spq level).text.length : Nat) : Rat))

/-- `betterCandidate` test of the overflow branch. -/
def overBetter (cfg : PartConfig) (spq level : Nat) : Option OverCand → Bool
  | none => true
  | some b =>
    if cfg.strictM then
      decide (b.retainedEndTicks + 1 / 1000000000 < overRetainedEnd cfg spq level) ||
      (decide (|overRetainedEnd cfg spq level - b.retainedEndTicks| ≤ 1 / 1000000000) &&
        (decide (((b.retainedNE : Nat) : Rat) + 1 / 1000000000 <
            ((overRetainedNE cfg spq level : Nat) : Rat)) ||
          (decide (|((overRetainedNE cfg spq level : Nat) : Rat) - ((b.retainedNE : Nat) : Rat)| ≤
              1 / 1000000000) &&
            (eGtE (overScore cfg spq level) b.score ||
              (eAbsLeE (overScore cfg spq level) b.score &&
                decide ((candidateEncoded cfg spq level).text.length < b.textLen))))))
    else
      decide (b.projectedNotes + 1 / 2 < overProjected cfg spq level) ||
      (decide (|overProjected cfg spq level - b.projectedNotes| ≤ 1 / 2) &&
        decide (((b.ne : Nat) : Rat) + 1 < ((candidateNE cfg spq level : Nat) : Rat))) ||
      eGtE (overScore cfg spq level) b.score ||
      (eAbsLeE (overScore cfg spq level) b.score &&
        decide ((candidateEncoded cfg spq level).text.length < b.textLen))

/-- One (resolution, simplify-level) iteration of the search: classify
the candidate into the within-limit, low-priority or overflow slot and
keep the better entry. -/
def considerLevel (cfg : PartConfig) (st : SearchState) (spq level : Nat) :
    SearchState :=
  if (candidateEncoded cfg spq level).text.length ≤ cfg.limit ∧
      partAllowWithin cfg spq = true then
    { st with
      bestWithin :=
        if withinBetter cfg spq level st.bestWithin then
          some ⟨(candidateEncoded cfg spq level).text, spq, candidateNE cfg spq level,
            candScore cfg spq level⟩
        else st.bestWithin }
  else if (candidateEncoded cfg spq level).text.length ≤ cfg.limit then
    { st with
      lowWithin :=
        if lowBetter cfg spq level st.lowWithin then
          some ⟨(candidateEncoded cfg spq level).text, spq, candidateNE cfg spq level,
            candScore cfg spq level⟩
        else st.lowWithin }
  else
    { st with
      bestOver :=
        if overBetter cfg spq level st.bestOver then
          some ⟨(candidateEncoded cfg spq level).text.length,
            (candidateEncoded cfg spq level).tokens,
            (candidateEncoded cfg spq level).tokenSteps,
            candidateNE cfg spq level, overProjected cfg spq level,
            overScore cfg spq level, overRetainedEnd cfg spq level,
            overRetainedNE cfg spq level⟩
        else st.bestOver }

/-- One resolution of the search: skip silent resolutions, otherwise run
every simplify level of the pass. -/
def processSpq (cfg : PartConfig) (levels : List Nat) (st : SearchState)
    (spq : Nat) : SearchState :=
  if (partBaseSeq cfg spq).any (fun p => p ≠ none) = false ∧ partKeep cfg = false then st
  else levels.foldl (fun s lv => considerLevel cfg s spq lv) st

/-- One pass of the search over every resolution. -/
def processPass (cfg : PartConfig) (st : SearchState) (levels : List Nat) :
    SearchState :=
  (partStepCandidates cfg).foldl (processSpq cfg levels) st

/-- Pass loop of `buildPartText`: the JS returns right after the first
pass that sets `bestWithinLimit`, so later passes never run. -/
def passesGo (cfg : PartConfig) : List (List Nat) → SearchState → SearchState
  | [], st => st
  | levels :: rest, st =>
    if (processPass cfg st levels).bestWithin.isSome then processPass cfg st levels
    else passesGo cfg rest (processPass cfg st levels)

/-- The no-candidate fallback string (`t...v...o4l4r1`). -/
def fallbackText (cfg : PartConfig) : String :=
  (if cfg.includeTempo then "t" ++ intToDecimalString cfg.tempo else "") ++
    "v" ++ intToDecimalString cfg.volume ++ "o4l4r1"

/-- JS `buildPartText(config)` (text result). -/
def buildPartText (cfg : PartConfig) : String :=
  match passesGo cfg (partPasses cfg) ⟨none, none, none⟩ with
  | ⟨some b, _, _⟩ => b.text
  | ⟨none, some c, _⟩ => c.text
  | ⟨none, none, none⟩ => String.mk ((fallbackText cfg).data.take cfg.limit)
  | ⟨none, none, some b⟩ =>
    (truncateTokensWithStats b.tokens b.tokenSteps cfg.limit).text

theorem truncateTokensWithStats_le (tokens : List String) (tokenSteps : List Nat)
    (limit : Nat) :
    (truncateTokensWithStats tokens tokenSteps limit).text.length ≤ limit := by
  unfold truncateTokensWithStats
  by_cases hg : limit = 0 ∨ tokens = []
  · rw [if_pos hg]
    simp
  · rw [if_neg hg]
    obtain ⟨k, h1, h2, h3⟩ := truncGo_spec limit tokens tokenSteps "" 0 0 0 (by simp)
    exact h2

/-- The length invariant of the search state: every stored within-limit
candidate fits the budget. -/
def InvW (cfg : PartConfig) (st : SearchState) : Prop :=
  (∀ b, st.bestWithin = some b → b.text.length ≤ cfg.limit) ∧
  (∀ b, st.lowWithin = some b → b.text.length ≤ cfg.limit)

theorem foldl_preserve {α β : Type} (P : α → Prop) (f : α → β → α)
    (hf : ∀ st x, P st → P (f st x)) :
    ∀ (l : List β) (st : α), P st → P (List.foldl f st l) := by
  intro l
  induction l with
  | nil => intro st h; exact h
  | cons x xs ih =>
    intro st h
    rw [List.foldl_cons]
    exact ih _ (hf st x h)

theorem considerLevel_inv (cfg : PartConfig) (st : SearchState) (spq level : Nat)
    (h : InvW cfg st) : InvW cfg (considerLevel cfg st spq level) := by
  obtain ⟨h1, h2⟩ := h
  unfold considerLevel
  by_cases hg1 : (candidateEncoded cfg spq level).text.length ≤ cfg.limit ∧
      partAllowWithin cfg spq = true
  · rw [if_pos hg1]
    constructor
    · intro b hb
      dsimp only at hb
      split at hb
      · cases hb
        exact hg1.1
      · exact h1 b hb
    · intro b hb
      exact h2 b hb
  · rw [if_neg hg1]
    by_cases hg2 : (candidateEncoded cfg spq level).text.length ≤ cfg.limit
    · rw [if_pos hg2]
      constructor
      · intro b hb
        exact h1 b hb
      · intro b hb
        dsimp only at hb
        split at hb
        · cases hb
          exact hg2
        · exact h2 b hb
    · rw [if_neg hg2]
      exact ⟨fun b hb => h1 b hb, fun b hb => h2 b hb⟩

theorem processSpq_inv (cfg : PartConfig) (levels : List Nat) (st : SearchState)
    (spq : Nat) (h : InvW cfg st) : InvW cfg (processSpq cfg levels st spq) := by
  unfold processSpq
  split
  · exact h
  · exact foldl_preserve (InvW cfg) _
      (fun s lv hs => considerLevel_inv cfg s spq lv hs) levels st h

theorem processPass_inv (cfg : PartConfig) (st : SearchState) (levels : List Nat)
    (h : InvW cfg st) : InvW cfg (processPass cfg st levels) :=
  foldl_preserve (InvW cfg) (processSpq cfg levels)
    (fun s x hs => processSpq_inv cfg levels s x hs) _ st h

theorem passesGo_inv (cfg : PartConfig) :
    ∀ (passes : List (List Nat)) (st : SearchState),
    InvW cfg st → InvW cfg (passesGo cfg passes st) := by
  intro passes
  induction passes with
  | nil =>
    intro st h
    rw [passesGo]
    exact h
  | cons levels rest ih =>
    intro st h
    rw [passesGo]
    split
    · exact processPass_inv cfg st levels h
    · exact ih _ (processPass_inv cfg st levels h)

theorem buildPartText_le (cfg : PartConfig) :
    (buildPartText cfg).length ≤ cfg.limit := by
  have hinv : InvW cfg (passesGo cfg (partPasses cfg) ⟨none, none, none⟩) :=
    passesGo_inv cfg _ _
      ⟨fun b hb => absurd hb (by simp), fun b hb => absurd hb (by simp)⟩
  unfold buildPartText
  rcases hst : passesGo cfg (partPasses cfg) ⟨none, none, none⟩ with ⟨bw, lw, bo⟩
  rw [hst] at hinv
  cases bw with
  | some b => exact hinv.1 b rfl
  | none =>
    cases lw with
    | some c => exact hinv.2 c rfl
    | none =>
      cases bo with
      | none =>
        show (List.take cfg.limit (fallbackText cfg).data).length ≤ cfg.limit
        rw [List.length_take]
        exact min_le_left _ _
      | some b => exact truncateTokensWithStats_le b.tokens b.tokenSteps cfg.limit

/-- C1: for a part built in non-strict mode with compression on and the
part budget as limit (melody 1200, chord1 800, chord2 500), if any
candidate in the (resolution × simplify-level) search space renders to
text within the budget, the emitted text fits the budget. (The emitted
text in fact always fits the configured limit, by `buildPartText_le`.) -/
theorem buildPartText_budget (cfg : PartConfig)
    (hstrict : cfg.strictM = false) (hcompress : cfg.compress = true)
    (hbudget : cfg.limit = LIMITS cfg.mode)
    (hcand : ∃ levels ∈ partPasses cfg, ∃ level ∈ levels,
      ∃ spq ∈ partStepCandidates cfg,
      (candidateEncoded cfg spq level).text.length ≤ cfg.limit) :
    (buildPartText cfg).length ≤ cfg.limit :=
  buildPartText_le cfg

/-- Witness for the C1 theorem at a one-note melody part. -/
theorem buildPartText_budget_witness :
    (buildPartText
      ⟨[⟨60, 0, 96, 1⟩], Mode.melody, 1200, 120, 12, true, 96, true, 0, false⟩).length ≤
      (⟨[⟨60, 0, 96, 1⟩], Mode.melody, 1200, 120, 12, true, 96, true, 0,
        false⟩ : PartConfig).limit :=
  buildPartText_budget _ rfl rfl (by decide) (by with_unfolding_all decide)

end MidToChord
